import Mathlib

/-!
Verification of the ETL transformation core of the repository:
`src/etl/transformers/data_cleaner.py` (class `DataCleaner`) and
`src/etl/transformers/technical_indicators.py` (class `TechnicalIndicators`).

The embedding models pandas/numpy float semantics with an extended-value
type `EFloat` (finite rational, +inf, -inf, NaN); `NaN` plays the role of
pandas' null.  Real-valued transcendental functions of the source
(`np.log`, `np.sqrt` inside `std`) are modelled by computable rational
approximations that preserve the sign/zero/NaN/inf structure of the float
functions; theorems below depend only on that structure.  pandas sorts
(`sort_values`, numpy introsort) are modelled as a stable insertion sort:
on duplicate keys numpy's order is unspecified, and for the small concrete
inputs appearing in counterexamples numpy in fact uses a stable insertion
sort.  `DataCleaner` works over `Option ℚ` (`none` = missing/NaN/NaT);
no operation of the cleaner can produce an infinity.
-/

namespace DM

/-- IEEE-754-style extended value: finite rational, infinities, NaN.
`nan` doubles as pandas' missing value. -/
inductive EFloat where
  | nan : EFloat
  | pinf : EFloat
  | ninf : EFloat
  | fin : ℚ → EFloat
deriving DecidableEq

namespace EFloat

/-- IEEE addition. -/
def add : EFloat → EFloat → EFloat
  | nan, _ => nan
  | _, nan => nan
  | pinf, ninf => nan
  | ninf, pinf => nan
  | pinf, _ => pinf
  | _, pinf => pinf
  | ninf, _ => ninf
  | _, ninf => ninf
  | fin a, fin b => fin (a + b)

/-- IEEE negation. -/
def neg : EFloat → EFloat
  | nan => nan
  | pinf => ninf
  | ninf => pinf
  | fin a => fin (-a)

/-- IEEE subtraction. -/
def sub (a b : EFloat) : EFloat := add a (neg b)

/-- IEEE multiplication (0 * inf = NaN). -/
def mul : EFloat → EFloat → EFloat
  | nan, _ => nan
  | _, nan => nan
  | pinf, pinf => pinf
  | pinf, ninf => ninf
  | ninf, pinf => ninf
  | ninf, ninf => pinf
  | pinf, fin b => if b = 0 then nan else if 0 < b then pinf else ninf
  | ninf, fin b => if b = 0 then nan else if 0 < b then ninf else pinf
  | fin a, pinf => if a = 0 then nan else if 0 < a then pinf else ninf
  | fin a, ninf => if a = 0 then nan else if 0 < a then ninf else pinf
  | fin a, fin b => fin (a * b)

/-- IEEE division as numpy produces it for array operations:
`x / 0` is `±inf` for `x ≠ 0` and `NaN` for `x = 0`
(numpy emits a warning but yields these values). -/
def div : EFloat → EFloat → EFloat
  | nan, _ => nan
  | _, nan => nan
  | pinf, pinf => nan
  | pinf, ninf => nan
  | ninf, pinf => nan
  | ninf, ninf => nan
  | pinf, fin b => if 0 ≤ b then pinf else ninf
  | ninf, fin b => if 0 ≤ b then ninf else pinf
  | fin _, pinf => fin 0
  | fin _, ninf => fin 0
  | fin a, fin b =>
      if b = 0 then (if a = 0 then nan else if 0 < a then pinf else ninf)
      else fin (a / b)

instance : Add EFloat := ⟨add⟩
instance : Neg EFloat := ⟨neg⟩
instance : Sub EFloat := ⟨sub⟩
instance : Mul EFloat := ⟨mul⟩
instance : Div EFloat := ⟨div⟩

/-- IEEE strict less-than: any comparison involving NaN is false. -/
def ltE : EFloat → EFloat → Bool
  | nan, _ => false
  | _, nan => false
  | pinf, _ => false
  | ninf, ninf => false
  | ninf, _ => true
  | fin _, pinf => true
  | fin _, ninf => false
  | fin a, fin b => decide (a < b)

/-- IEEE less-or-equal: any comparison involving NaN is false. -/
def leE : EFloat → EFloat → Bool
  | nan, _ => false
  | _, nan => false
  | _, pinf => true
  | pinf, _ => false
  | ninf, _ => true
  | fin _, ninf => false
  | fin a, fin b => decide (a ≤ b)

/-- NaN test (`pd.isna` on floats). -/
def isNaN : EFloat → Bool
  | nan => true
  | _ => false

/-- numpy `abs`. -/
def absE : EFloat → EFloat
  | nan => nan
  | pinf => pinf
  | ninf => pinf
  | fin a => fin |a|

/-- Python `max(a, b)`: returns `b` iff `a < b` (mirrors CPython's
`if b > m: m = b` accumulation, which is what `max(tr1, tr2, tr3)` does). -/
def pymax (a b : EFloat) : EFloat := if ltE a b then b else a

/-- Sum of a list of extended values (left fold, starting at 0). -/
def sumE (xs : List EFloat) : EFloat := xs.foldl add (fin 0)

/-- Arithmetic mean used by `rolling(...).mean()` on a full window. -/
def meanE (xs : List EFloat) : EFloat := div (sumE xs) (fin (xs.length : ℚ))

/-- Minimum of a non-empty window (`rolling(...).min()`). -/
def minE : List EFloat → EFloat
  | [] => nan
  | x :: xs => xs.foldl (fun m y => if ltE y m then y else m) x

/-- Maximum of a non-empty window (`rolling(...).max()`). -/
def maxE : List EFloat → EFloat
  | [] => nan
  | x :: xs => xs.foldl (fun m y => if ltE m y then y else m) x

/-- Computable stand-in for the real square root on rationals:
`Nat.sqrt (num * den) / den`.  It is exact at `0`, positive on positive
arguments and nonnegative everywhere, which is all the development uses. -/
def ratSqrt (q : ℚ) : ℚ := (Nat.sqrt (q.num.toNat * q.den) : ℚ) / (q.den : ℚ)

/-- numpy `sqrt` on extended values. -/
def sqrtE : EFloat → EFloat
  | nan => nan
  | pinf => pinf
  | ninf => nan
  | fin q => if q < 0 then nan else fin (ratSqrt q)

/-- Computable stand-in for the finite part of `np.log`: a base-2 integer
log-ratio approximation.  Only its NaN/∞ structure (below) is used. -/
def ratLog (q : ℚ) : ℚ := (Nat.log2 q.num.toNat : ℚ) - (Nat.log2 q.den : ℚ)

/-- numpy `log`: `log 0 = -inf`, `log x = NaN` for `x < 0`. -/
def logE : EFloat → EFloat
  | nan => nan
  | pinf => pinf
  | ninf => nan
  | fin q => if q < 0 then nan else if q = 0 then ninf else fin (ratLog q)

/-- Sample standard deviation of a full window
(`rolling(...).std()`, `ddof = 1`). -/
def stdE (xs : List EFloat) : EFloat :=
  let m := meanE xs
  sqrtE (div (sumE (xs.map (fun x => mul (sub x m) (sub x m))))
             (fin ((xs.length : ℚ) - 1)))

end EFloat

open EFloat

/-! ## Generic list helpers shared by both components -/

/-- Non-empty prefixes of a list, shortest first: the value of a pandas
column at row `i` of a per-ticker frame is a function of the prefix of
length `i + 1`, and every derived column below is phrased that way. -/
def inits1 {α : Type} : List α → List (List α)
  | [] => []
  | x :: xs => [x] :: (inits1 xs).map (fun p => x :: p)

/-- Stable insertion into a list sorted by the strict comparison `lt`:
the new element goes before any element it is not strictly after. -/
def insertLt {α : Type} (lt : α → α → Bool) (x : α) : List α → List α
  | [] => [x]
  | y :: ys => if lt y x then y :: insertLt lt x ys else x :: y :: ys

/-- Stable sort by a strict comparison (models `sort_values`). -/
def sortLt {α : Type} (lt : α → α → Bool) : List α → List α
  | [] => []
  | x :: xs => insertLt lt x (sortLt lt xs)

/-- `drop_duplicates(keep='last')` for an arbitrary key: keep a row iff its
key does not reappear later in the list. -/
def dedupLast {α κ : Type} [DecidableEq κ] (key : α → κ) : List α → List α
  | [] => []
  | x :: xs => if xs.any (fun y => key y = key x) then dedupLast key xs
               else x :: dedupLast key xs

/-! ## DataCleaner (`src/etl/transformers/data_cleaner.py`)

One raw record.  The embedding's input domain is rows whose cells are
already typed-or-missing: `none` stands for `NaN`/`NaT`/missing, so the
type-coercion stage (`pd.to_datetime(errors='coerce')`,
`pd.to_numeric(errors='coerce')`) is the identity on every cell except
`ticker`, where `astype(str).str.upper()` upper-cases (and maps a missing
ticker to the string `"nan"` upper-cased, as `astype(str)` renders `NaN`).
Dates are day ordinals (`ℤ`). -/

structure CRow where
  datetime : Option ℤ
  ticker : Option String
  open_ : Option ℚ
  high : Option ℚ
  low : Option ℚ
  close : Option ℚ
  volume : Option ℚ
deriving DecidableEq

/-- A tabular record set: which of the seven canonical columns are present
(`col in df.columns` in the source) plus the rows.  Cells of absent
columns are dead payload that no stage reads or writes. -/
structure DFrame where
  hasDatetime : Bool
  hasTicker : Bool
  hasOpen : Bool
  hasClose : Bool
  hasHigh : Bool
  hasLow : Bool
  hasVolume : Bool
  rows : List CRow
deriving DecidableEq

/-- Python `str.upper` restricted to the ASCII range Lean's
`Char.toUpper` covers. -/
def upStr (s : String) : String := ⟨s.data.map Char.toUpper⟩

/-- `(datetime, ticker)` key used by `drop_duplicates` (raw cell values;
pandas treats two NaNs in the key as equal, as `Option` equality does). -/
def keyDT (r : CRow) : Option ℤ × Option String := (r.datetime, r.ticker)

/-- `_remove_duplicates`: `df.drop_duplicates(subset=['datetime','ticker'],
keep='last')`; raises `KeyError` when either subset column is absent. -/
def removeDuplicates (df : DFrame) : Except String DFrame :=
  if df.hasDatetime && df.hasTicker then
    .ok { df with rows := dedupLast keyDT df.rows }
  else .error "KeyError"

/-- Forward fill of one numeric column, grouped by `ticker`, in current row
order (`df.groupby('ticker')[col].fillna(method='ffill')`).  `carry` maps a
ticker to the last non-missing value seen in its group. -/
def ffillCol (get : CRow → Option ℚ) (set : CRow → Option ℚ → CRow) :
    List CRow → List (Option String × ℚ) → List CRow
  | [], _ => []
  | r :: rs, carry =>
    match get r with
    | some v => r :: ffillCol get set rs ((r.ticker, v) :: carry)
    | none =>
      match (carry.find? (fun p => decide (p.1 = r.ticker))).map (·.2) with
      | some v => set r (some v) :: ffillCol get set rs carry
      | none => r :: ffillCol get set rs carry

/-- Backward fill = forward fill of the reversed frame. -/
def bfillCol (get : CRow → Option ℚ) (set : CRow → Option ℚ → CRow)
    (rows : List CRow) : List CRow :=
  (ffillCol get set rows.reverse []).reverse

/-- Per-column treatment in `_handle_missing_values`: ffill then bfill. -/
def fillColumn (get : CRow → Option ℚ) (set : CRow → Option ℚ → CRow)
    (rows : List CRow) : List CRow :=
  bfillCol get set (ffillCol get set rows [])

/-- `_handle_missing_values`: drop rows with a missing critical cell
(`datetime`, `ticker`, `close`; raises `KeyError` when `close` is absent),
then ffill/bfill `open`, `high`, `low`, `volume` per ticker when present. -/
def handleMissingValues (df : DFrame) : Except String DFrame :=
  if df.hasClose then
    let r1 := df.rows.filter
      (fun r => r.datetime.isSome && r.ticker.isSome && r.close.isSome)
    let r2 := if df.hasOpen then fillColumn (·.open_) (fun r v => { r with open_ := v }) r1 else r1
    let r3 := if df.hasHigh then fillColumn (·.high) (fun r v => { r with high := v }) r2 else r2
    let r4 := if df.hasLow then fillColumn (·.low) (fun r v => { r with low := v }) r3 else r3
    let r5 := if df.hasVolume then fillColumn (·.volume) (fun r v => { r with volume := v }) r4 else r4
    .ok { df with rows := r5 }
  else .error "KeyError"

/-- `astype(str).str.upper()` on one row's ticker (`astype(str)` renders a
missing ticker as the string `"nan"`). -/
def coerceRow (r : CRow) : CRow :=
  { r with ticker := some (upStr (r.ticker.getD "nan")) }

/-- `_validate_data_types`: on this embedding's input domain the datetime
and numeric coercions are the identity; `ticker` becomes
`astype(str).str.upper()`. -/
def validateDataTypes (df : DFrame) : DFrame :=
  if df.hasTicker then { df with rows := df.rows.map coerceRow } else df

/-- Skip-NaN maximum of three cells (`df[['high','open','close']].max(axis=1)`). -/
def maxO (a b c : Option ℚ) : Option ℚ :=
  let m2 : Option ℚ → Option ℚ → Option ℚ := fun x y =>
    match x, y with
    | none, y => y
    | x, none => x
    | some u, some v => some (max u v)
  m2 (m2 a b) c

/-- Skip-NaN minimum of three cells (`df[['low','open','close']].min(axis=1)`). -/
def minO (a b c : Option ℚ) : Option ℚ :=
  let m2 : Option ℚ → Option ℚ → Option ℚ := fun x y =>
    match x, y with
    | none, y => y
    | x, none => x
    | some u, some v => some (min u v)
  m2 (m2 a b) c

/-- `volume.clip(lower=0)` on one cell. -/
def clip0 (v : Option ℚ) : Option ℚ := v.map (fun q => max q 0)

/-- The repair applied to one row by `_fix_data_inconsistencies`:
`high := max(high, open, close)`, `low := min(low, open, close)`, and when
the volume column is present, `volume := volume.clip(lower=0)`. -/
def fixRow (hasVol : Bool) (r : CRow) : CRow :=
  let r' := { r with high := maxO r.high r.open_ r.close,
                     low := minO r.low r.open_ r.close }
  if hasVol then { r' with volume := clip0 r.volume } else r'

/-- `_fix_data_inconsistencies`: only when all four price columns are
present, repair `high`/`low` and clip `volume`. -/
def fixDataInconsistencies (df : DFrame) : DFrame :=
  if df.hasOpen && df.hasClose && df.hasHigh && df.hasLow then
    { df with rows := df.rows.map (fixRow df.hasVolume) }
  else df

/-- `Series.quantile(q)` with the default linear interpolation, over the
non-missing values; `none` when there are none. -/
def quantileQ (q : ℚ) (vals : List ℚ) : Option ℚ :=
  let sorted := sortLt (fun a b => decide (a < b)) vals
  match sorted.length with
  | 0 => none
  | n =>
    let pos : ℚ := q * ((n : ℚ) - 1)
    let i : ℕ := (Int.floor pos).toNat
    let lo := sorted.getD i 0
    let hi := sorted.getD (i + 1) lo
    some (lo + (pos - (i : ℚ)) * (hi - lo))

/-- One pass of the IQR filter for a single column over the current
survivors: rows are kept when the cell is non-missing and inside
`[Q1 - 1.5*IQR, Q3 + 1.5*IQR]` (a NaN comparison is false, so rows with a
missing cell are dropped, and if the column has no values at all the NaN
bounds drop every row). -/
def outlierFilterCol (get : CRow → Option ℚ) (rows : List CRow) : List CRow :=
  let vals := rows.filterMap get
  match quantileQ (1/4) vals, quantileQ (3/4) vals with
  | some q1, some q3 =>
    let iqr := q3 - q1
    let lb := q1 - 3/2 * iqr
    let ub := q3 + 3/2 * iqr
    rows.filter (fun r =>
      match get r with
      | some v => decide (lb ≤ v) && decide (v ≤ ub)
      | none => false)
  | _, _ => rows.filter (fun _ => false)

/-- `_remove_outliers` with its default `method='iqr'` (the only method
`clean_data` invokes): sequential per-column IQR filtering over
`['open', 'close', 'high', 'low']`, each column over the previous
column's survivors. -/
def removeOutliersIqr (df : DFrame) : DFrame :=
  let step : Bool → (CRow → Option ℚ) → List CRow → List CRow :=
    fun flag get rows => if flag then outlierFilterCol get rows else rows
  let r1 := step df.hasOpen (·.open_) df.rows
  let r2 := step df.hasClose (·.close) r1
  let r3 := step df.hasHigh (·.high) r2
  let r4 := step df.hasLow (·.low) r3
  { df with rows := r4 }

/-- `_validate_business_rules`: drop non-positive prices (per present
column, in source order), negative volume, and future dates; every
comparison against a missing cell is false, dropping the row. -/
def validateBusinessRules (now : ℤ) (df : DFrame) : DFrame :=
  let pstep : Bool → (CRow → Option ℚ) → List CRow → List CRow :=
    fun flag get rows =>
      if flag then rows.filter (fun r => match get r with
        | some v => decide (0 < v)
        | none => false) else rows
  let r1 := pstep df.hasOpen (·.open_) df.rows
  let r2 := pstep df.hasClose (·.close) r1
  let r3 := pstep df.hasHigh (·.high) r2
  let r4 := pstep df.hasLow (·.low) r3
  let r5 := if df.hasVolume then r4.filter (fun r => match r.volume with
      | some v => decide (0 ≤ v)
      | none => false) else r4
  let r6 := if df.hasDatetime then r5.filter (fun r => match r.datetime with
      | some d => decide (d ≤ now)
      | none => false) else r5
  { df with rows := r6 }

/-- Strict comparison by a key into a linear order (rows compare by key;
`sort_values` on `['datetime','ticker']` is the lexicographic key with
missing values last, hence `WithTop`). -/
def keyLt {α β : Type} [LinearOrder β] (k : α → β) (a b : α) : Bool :=
  decide (k a < k b)

/-- The `(datetime, ticker)` sort key of the final
`sort_values(['datetime', 'ticker'])`. -/
def sortKeyC (r : CRow) : Lex (WithTop ℤ × WithTop String) :=
  toLex ((r.datetime : WithTop ℤ), (r.ticker : WithTop String))

/-- Strict row comparison for the final sort. -/
def rowLt (r s : CRow) : Bool := keyLt sortKeyC r s

/-- `clean_data`: the six stages in source order, then sort and index
reset.  `now` is the processing instant consulted by the future-date rule
(`pd.Timestamp.now()`). -/
def cleanData (now : ℤ) (df : DFrame) : Except String DFrame := do
  let df1 ← removeDuplicates df
  let df2 ← handleMissingValues df1
  let df3 := validateDataTypes df2
  let df4 := fixDataInconsistencies df3
  let df5 := removeOutliersIqr df4
  let df6 := validateBusinessRules now df5
  pure { df6 with rows := sortLt rowLt df6.rows }

/-! ## TechnicalIndicators (`src/etl/transformers/technical_indicators.py`)

`calculate_all_indicators` runs five helpers in sequence; each one splits
the frame into per-ticker blocks in first-appearance order of
`df['ticker'].unique()`, sorts each block by `date` and concatenates.
After the first helper the frame already consists of date-sorted ticker
blocks in that same first-appearance order, so the later partitions are
identical and the re-sorts are the identity: the composition equals one
partition into sorted ticker blocks with all column computations applied
per block.  The embedding uses that collapsed form; each column function
below is the source formula for the column's value at a row, as a function
of the block's prefix ending at that row (rolling windows, `ewm`, `diff`,
`pct_change` and the Python accumulation loops all look only backwards) —
except `total_return`, which reads the block's last row. -/

structure IRow where
  date : ℤ
  ticker : String
  open_ : EFloat
  high : EFloat
  low : EFloat
  close : EFloat
  volume : EFloat
deriving DecidableEq

/-- Forward fill a value column (`fillna(method='ffill')` semantics used
by `pct_change`'s default pad fill). -/
def ffillE (xs : List EFloat) : List EFloat :=
  (xs.foldl (fun (acc : List EFloat × EFloat) x =>
      let y := if x.isNaN then acc.2 else x
      (y :: acc.1, y)) ([], nan)).1.reverse

/-- `Series.diff()`: first element NaN, then successive differences. -/
def diffL : List EFloat → List EFloat
  | [] => []
  | x :: xs =>
    let rec go : EFloat → List EFloat → List EFloat
      | _, [] => []
      | prev, y :: ys => sub y prev :: go y ys
    nan :: go x xs

/-- `rolling(window=n)` aggregation evaluated at the last position of
`xs`: NaN when fewer than `n` observations exist or the window contains a
NaN (`min_periods` defaults to the window size), else `g` of the window. -/
def rollLast (n : ℕ) (g : List EFloat → EFloat) (xs : List EFloat) : EFloat :=
  if xs.length < n then nan
  else
    let win := xs.drop (xs.length - n)
    if win.any isNaN then nan else g win

/-- `ewm(span=span, adjust=True).mean()` at the last position: weights
`(1-α)^distance`, NaN entries skipped but still decaying older weights
(`ignore_na=False`), NaN when no observation yet. -/
def ewmLast (span : ℕ) (xs : List EFloat) : EFloat :=
  let a : ℚ := 2 / ((span : ℚ) + 1)
  let st := xs.foldl (fun (acc : EFloat × ℚ) x =>
    let num := mul acc.1 (fin (1 - a))
    let den := acc.2 * (1 - a)
    if x.isNaN then (num, den) else (add num x, den + 1)) (fin 0, 0)
  if st.2 = 0 then nan else div st.1 (fin st.2)

/-- The row's own close (`ticker_data['close']` at the current position). -/
def closeAt (p : List IRow) : EFloat := (p.map (fun r => r.close)).getLastD nan

/-- Value of a derived column at every position of the block prefix `p`
(the column seen as a series, for columns that feed later columns). -/
def prefApply (f : List IRow → EFloat) (p : List IRow) : List EFloat :=
  (inits1 p).map f

/-- `close.pct_change()` (default pad fill: forward-fill, then divide by
the previous filled value and subtract 1; NaN at the first position). -/
def dailyReturnAt (p : List IRow) : EFloat :=
  match (ffillE (p.map (fun r => r.close))).reverse with
  | cur :: prev :: _ => sub (div cur prev) (fin 1)
  | _ => nan

/-- `close.apply(np.log).diff()` at the last position. -/
def dailyLogReturnAt (p : List IRow) : EFloat :=
  match (p.map (fun r => logE r.close)).reverse with
  | cur :: prev :: _ => sub cur prev
  | _ => nan

/-- `daily_return.cumsum()` at the last position (pandas `cumsum` skips
NaNs but leaves NaN at NaN positions). -/
def cumulativeReturnAt (p : List IRow) : EFloat :=
  if (dailyReturnAt p).isNaN then nan
  else sumE ((prefApply dailyReturnAt p).filter (fun x => !x.isNaN))

/-- `close.iloc[-1] / close.iloc[0] - 1`, a constant over the whole ticker
block: the one column computed from the block's future. -/
def totalReturnOf (ys : List IRow) : EFloat :=
  sub (div ((ys.map (fun r => r.close)).getLastD nan)
           ((ys.map (fun r => r.close)).headD nan)) (fin 1)

/-- `close.rolling(window=n).mean()` at the last position. -/
def smaAt (n : ℕ) (p : List IRow) : EFloat :=
  rollLast n meanE (p.map (fun r => r.close))

/-- `close.ewm(span=n).mean()` at the last position. -/
def emaAt (n : ℕ) (p : List IRow) : EFloat :=
  ewmLast n (p.map (fun r => r.close))

/-- `((close - sma_n) / sma_n) * 100` at the last position. -/
def priceVsSmaAt (n : ℕ) (p : List IRow) : EFloat :=
  mul (div (sub (closeAt p) (smaAt n p)) (smaAt n p)) (fin 100)

/-- `daily_return.rolling(window=n).std() * np.sqrt(252)`. -/
def volatilityAt (n : ℕ) (p : List IRow) : EFloat :=
  mul (rollLast n stdE (prefApply dailyReturnAt p)) (sqrtE (fin 252))

/-- True range: `high - low` on the first bar, else the Python
`max(high-low, abs(high-prev_close), abs(low-prev_close))`. -/
def trAt (p : List IRow) : EFloat :=
  match p.reverse with
  | [] => nan
  | [r] => sub r.high r.low
  | r :: q :: _ =>
    pymax (pymax (sub r.high r.low) (absE (sub r.high q.close)))
          (absE (sub r.low q.close))

/-- `tr.rolling(window=14).mean()`. -/
def atrAt (p : List IRow) : EFloat := rollLast 14 meanE (prefApply trAt p)

/-- 20-bar Bollinger middle band (`close.rolling(20).mean()`). -/
def bbMiddleAt (p : List IRow) : EFloat :=
  rollLast 20 meanE (p.map (fun r => r.close))

/-- 20-bar rolling standard deviation of close. -/
def bbStdAt (p : List IRow) : EFloat :=
  rollLast 20 stdE (p.map (fun r => r.close))

/-- `bb_middle + bb_std * 2`. -/
def bbUpperAt (p : List IRow) : EFloat :=
  add (bbMiddleAt p) (mul (bbStdAt p) (fin 2))

/-- `bb_middle - bb_std * 2`. -/
def bbLowerAt (p : List IRow) : EFloat :=
  sub (bbMiddleAt p) (mul (bbStdAt p) (fin 2))

/-- `(bb_upper - bb_lower) / bb_middle`. -/
def bbWidthAt (p : List IRow) : EFloat :=
  div (sub (bbUpperAt p) (bbLowerAt p)) (bbMiddleAt p)

/-- `(close - bb_lower) / (bb_upper - bb_lower)`. -/
def bbPositionAt (p : List IRow) : EFloat :=
  div (sub (closeAt p) (bbLowerAt p)) (sub (bbUpperAt p) (bbLowerAt p))

/-- `delta.where(delta > 0, 0)` on one cell: the NaN first delta fails the
comparison and becomes 0. -/
def posPart (x : EFloat) : EFloat := if ltE (fin 0) x then x else fin 0

/-- `-delta.where(delta < 0, 0)` on one cell. -/
def negPart (x : EFloat) : EFloat := neg (if ltE x (fin 0) then x else fin 0)

/-- Wilder-style RSI over the rolling-mean gains/losses of window `n`:
`100 - 100 / (1 + gain/loss)`. -/
def rsiAt (n : ℕ) (p : List IRow) : EFloat :=
  let deltas := diffL (p.map (fun r => r.close))
  let gain := rollLast n meanE (deltas.map posPart)
  let loss := rollLast n meanE (deltas.map negPart)
  sub (fin 100) (div (fin 100) (add (fin 1) (div gain loss)))

/-- `ema_12 - ema_26` of close. -/
def macdAt (p : List IRow) : EFloat := sub (emaAt 12 p) (emaAt 26 p)

/-- `macd.ewm(span=9).mean()`. -/
def macdSignalAt (p : List IRow) : EFloat := ewmLast 9 (prefApply macdAt p)

/-- `macd - macd_signal`. -/
def macdHistogramAt (p : List IRow) : EFloat :=
  sub (macdAt p) (macdSignalAt p)

/-- `low.rolling(14).min()`. -/
def lowestLowAt (p : List IRow) : EFloat :=
  rollLast 14 minE (p.map (fun r => r.low))

/-- `high.rolling(14).max()`. -/
def highestHighAt (p : List IRow) : EFloat :=
  rollLast 14 maxE (p.map (fun r => r.high))

/-- `100 * (close - lowest_low) / (highest_high - lowest_low)`. -/
def stochKAt (p : List IRow) : EFloat :=
  mul (fin 100) (div (sub (closeAt p) (lowestLowAt p))
                     (sub (highestHighAt p) (lowestLowAt p)))

/-- `stoch_k.rolling(3).mean()`. -/
def stochDAt (p : List IRow) : EFloat :=
  rollLast 3 meanE (prefApply stochKAt p)

/-- `-100 * (highest_high - close) / (highest_high - lowest_low)`. -/
def williamsRAt (p : List IRow) : EFloat :=
  mul (fin (-100)) (div (sub (highestHighAt p) (closeAt p))
                        (sub (highestHighAt p) (lowestLowAt p)))

/-- `volume.rolling(20).mean()`. -/
def volumeSma20At (p : List IRow) : EFloat :=
  rollLast 20 meanE (p.map (fun r => r.volume))

/-- `volume / volume_sma_20`. -/
def volumeRatioAt (p : List IRow) : EFloat :=
  div ((p.map (fun r => r.volume)).getLastD nan) (volumeSma20At p)

/-- On-balance volume: seeded with the first bar's volume, then add the
bar's volume when close rose, subtract when it fell (NaN comparisons are
false, leaving the accumulator unchanged). -/
def obvAt (p : List IRow) : EFloat :=
  match p with
  | [] => nan
  | r0 :: rest =>
    (rest.foldl (fun (acc : EFloat × EFloat) r =>
      (if ltE acc.2 r.close then add acc.1 r.volume
       else if ltE r.close acc.2 then sub acc.1 r.volume
       else acc.1, r.close)) (r0.volume, r0.close)).1

/-- Volume-price trend: seeded at 0, then accumulate
`volume * daily_return`. -/
def vptAt (p : List IRow) : EFloat :=
  match p.zip (prefApply dailyReturnAt p) with
  | [] => nan
  | _ :: rest =>
    rest.foldl (fun acc rv => add acc (mul rv.1.volume rv.2)) (fin 0)

/-- Money-flow split: first position 0 (never assigned by the source
loop), then the bar's money flow when `cmp prev_typical typical` holds,
else 0. -/
def flows (cmp : EFloat → EFloat → Bool) : List (EFloat × EFloat) → List EFloat
  | [] => []
  | x :: rest =>
    let rec go : EFloat → List (EFloat × EFloat) → List EFloat
      | _, [] => []
      | prev, (t, m) :: ys => (if cmp prev t then m else fin 0) :: go t ys
    fin 0 :: go x.1 rest

/-- Money-flow index over 14-bar sums of the positive/negative flows of
`typical_price = (high + low + close) / 3` times volume. -/
def mfiAt (p : List IRow) : EFloat :=
  let typical := p.map (fun r => div (add (add r.high r.low) r.close) (fin 3))
  let money := List.zipWith mul typical (p.map (fun r => r.volume))
  let tm := typical.zip money
  let pmf := rollLast 14 sumE (flows (fun prev cur => ltE prev cur) tm)
  let nmf := rollLast 14 sumE (flows (fun prev cur => ltE cur prev) tm)
  sub (fin 100) (div (fin 100) (add (fin 1) (div pmf nmf)))

/-- One output row: the base OHLCV fields plus every indicator column the
five helpers add, in source order.  `volume_ratio_` models the source
column `volume_ratio`. -/
structure ERow where
  date : ℤ
  ticker : String
  open_ : EFloat
  high : EFloat
  low : EFloat
  close : EFloat
  volume : EFloat
  daily_return : EFloat
  daily_log_return : EFloat
  cumulative_return : EFloat
  total_return : EFloat
  sma_5 : EFloat
  ema_5 : EFloat
  price_vs_sma_5_pct : EFloat
  sma_10 : EFloat
  ema_10 : EFloat
  price_vs_sma_10_pct : EFloat
  sma_20 : EFloat
  ema_20 : EFloat
  price_vs_sma_20_pct : EFloat
  sma_50 : EFloat
  ema_50 : EFloat
  price_vs_sma_50_pct : EFloat
  sma_100 : EFloat
  ema_100 : EFloat
  price_vs_sma_100_pct : EFloat
  sma_200 : EFloat
  ema_200 : EFloat
  price_vs_sma_200_pct : EFloat
  volatility_5d : EFloat
  volatility_10d : EFloat
  volatility_20d : EFloat
  volatility_30d : EFloat
  tr : EFloat
  atr_14 : EFloat
  bb_middle : EFloat
  bb_upper : EFloat
  bb_lower : EFloat
  bb_width : EFloat
  bb_position : EFloat
  rsi_14 : EFloat
  rsi_21 : EFloat
  macd : EFloat
  macd_signal : EFloat
  macd_histogram : EFloat
  stoch_k : EFloat
  stoch_d : EFloat
  williams_r : EFloat
  volume_sma_20 : EFloat
  volume_ratio_ : EFloat
  obv : EFloat
  vpt : EFloat
  mfi : EFloat
deriving DecidableEq

/-- Build the output row whose position is the end of block prefix `p`
inside the full sorted ticker block `ys`. -/
def mkAt (ys p : List IRow) : ERow :=
  let base := p.getLastD ⟨0, "", nan, nan, nan, nan, nan⟩
  { date := base.date
    ticker := base.ticker
    open_ := base.open_
    high := base.high
    low := base.low
    close := base.close
    volume := base.volume
    daily_return := dailyReturnAt p
    daily_log_return := dailyLogReturnAt p
    cumulative_return := cumulativeReturnAt p
    total_return := totalReturnOf ys
    sma_5 := smaAt 5 p
    ema_5 := emaAt 5 p
    price_vs_sma_5_pct := priceVsSmaAt 5 p
    sma_10 := smaAt 10 p
    ema_10 := emaAt 10 p
    price_vs_sma_10_pct := priceVsSmaAt 10 p
    sma_20 := smaAt 20 p
    ema_20 := emaAt 20 p
    price_vs_sma_20_pct := priceVsSmaAt 20 p
    sma_50 := smaAt 50 p
    ema_50 := emaAt 50 p
    price_vs_sma_50_pct := priceVsSmaAt 50 p
    sma_100 := smaAt 100 p
    ema_100 := emaAt 100 p
    price_vs_sma_100_pct := priceVsSmaAt 100 p
    sma_200 := smaAt 200 p
    ema_200 := emaAt 200 p
    price_vs_sma_200_pct := priceVsSmaAt 200 p
    volatility_5d := volatilityAt 5 p
    volatility_10d := volatilityAt 10 p
    volatility_20d := volatilityAt 20 p
    volatility_30d := volatilityAt 30 p
    tr := trAt p
    atr_14 := atrAt p
    bb_middle := bbMiddleAt p
    bb_upper := bbUpperAt p
    bb_lower := bbLowerAt p
    bb_width := bbWidthAt p
    bb_position := bbPositionAt p
    rsi_14 := rsiAt 14 p
    rsi_21 := rsiAt 21 p
    macd := macdAt p
    macd_signal := macdSignalAt p
    macd_histogram := macdHistogramAt p
    stoch_k := stochKAt p
    stoch_d := stochDAt p
    williams_r := williamsRAt p
    volume_sma_20 := volumeSma20At p
    volume_ratio_ := volumeRatioAt p
    obv := obvAt p
    vpt := vptAt p
    mfi := mfiAt p }

/-- All rows of one sorted ticker block, enriched. -/
def perTicker (ys : List IRow) : List ERow := (inits1 ys).map (mkAt ys)

/-- `df['ticker'].unique()`: tickers in first-appearance order. -/
def uniqueTickers : List IRow → List String
  | [] => []
  | r :: rs => r.ticker :: (uniqueTickers rs).filter (fun t => decide (t ≠ r.ticker))

/-- Strict date comparison for the per-ticker `sort_values('date')`. -/
def dateLt (r s : IRow) : Bool := decide (r.date < s.date)

/-- `dropna(subset=indicator_columns, how='all')` predicate: true when
every indicator column is NaN (the base OHLCV and date/ticker columns are
excluded by the source's `indicator_columns` list). -/
def allNaN (e : ERow) : Bool :=
  e.daily_return.isNaN && e.daily_log_return.isNaN && e.cumulative_return.isNaN &&
  e.total_return.isNaN &&
  e.sma_5.isNaN && e.ema_5.isNaN && e.price_vs_sma_5_pct.isNaN &&
  e.sma_10.isNaN && e.ema_10.isNaN && e.price_vs_sma_10_pct.isNaN &&
  e.sma_20.isNaN && e.ema_20.isNaN && e.price_vs_sma_20_pct.isNaN &&
  e.sma_50.isNaN && e.ema_50.isNaN && e.price_vs_sma_50_pct.isNaN &&
  e.sma_100.isNaN && e.ema_100.isNaN && e.price_vs_sma_100_pct.isNaN &&
  e.sma_200.isNaN && e.ema_200.isNaN && e.price_vs_sma_200_pct.isNaN &&
  e.volatility_5d.isNaN && e.volatility_10d.isNaN &&
  e.volatility_20d.isNaN && e.volatility_30d.isNaN &&
  e.tr.isNaN && e.atr_14.isNaN &&
  e.bb_middle.isNaN && e.bb_upper.isNaN && e.bb_lower.isNaN &&
  e.bb_width.isNaN && e.bb_position.isNaN &&
  e.rsi_14.isNaN && e.rsi_21.isNaN &&
  e.macd.isNaN && e.macd_signal.isNaN && e.macd_histogram.isNaN &&
  e.stoch_k.isNaN && e.stoch_d.isNaN && e.williams_r.isNaN &&
  e.volume_sma_20.isNaN && e.volume_ratio_.isNaN &&
  e.obv.isNaN && e.vpt.isNaN && e.mfi.isNaN

/-- `calculate_all_indicators`: per-ticker enrichment (five helper passes
collapsed as explained above) followed by the final
`dropna(subset=indicator_columns, how='all')`. -/
def calcAll (rows : List IRow) : List ERow :=
  ((uniqueTickers rows).flatMap (fun t =>
      perTicker (sortLt dateLt (rows.filter (fun r => decide (r.ticker = t)))))).filter
    (fun e => !(allNaN e))

/-- Clip one row's volume at 0 (used to state that negative volume is
repaired rather than causing a drop). -/
def clipRow (r : CRow) : CRow := { r with volume := clip0 r.volume }

/-- The same frame with every row's volume pre-clipped at 0. -/
def clipVolumeRows (df : DFrame) : DFrame := { df with rows := df.rows.map clipRow }

/-- A single fully-populated raw row: date ordinal 0, ticker `"A"`, all
four prices 1, volume −5 (deliberately negative). -/
def rowNegVol : CRow := ⟨some 0, some "A", some 1, some 1, some 1, some 1, some (-5)⟩

/-- One-row frame with every column present and a negative volume. -/
def dfNegVol : DFrame := ⟨true, true, true, true, true, true, true, [rowNegVol]⟩

/-- The row `clean_data` produces from `rowNegVol`: identical except that
volume was clipped to 0 by the repair stage. -/
def rowNegVolOut : CRow := ⟨some 0, some "A", some 1, some 1, some 1, some 1, some 0⟩

/-- Effect of the ticker type-coercion on a `(datetime, ticker)` key. -/
def normKey (k : Option ℤ × Option String) : Option ℤ × Option String :=
  (k.1, some (upStr (k.2.getD "nan")))

/-- Two rows that differ only in ticker case (and close value): distinct
`(datetime, ticker)` keys for `drop_duplicates`, colliding after
upper-casing. -/
def dfCaseDup : DFrame :=
  ⟨true, true, true, true, true, true, true,
    [⟨some 0, some "a", some 1, some 1, some 1, some 1, some 1⟩,
     ⟨some 0, some "A", some 1, some 1, some 1, some 1, some 1⟩]⟩

/-- The row both `dfCaseDup` rows normalize to. -/
def rowCase : CRow := ⟨some 0, some "A", some 1, some 1, some 1, some 1, some 1⟩

/-- The cleaned output of `dfCaseDup`: two rows with identical keys. -/
def dfCaseOut : DFrame := ⟨true, true, true, true, true, true, true, [rowCase, rowCase]⟩

/-- Two rows with the same raw `(datetime, ticker)` key; the last one
carries different prices. -/
def dfDupKey : DFrame :=
  ⟨true, true, true, true, true, true, true,
    [⟨some 0, some "A", some 1, some 1, some 1, some 1, some 1⟩,
     ⟨some 0, some "A", some 2, some 2, some 2, some 2, some 2⟩]⟩

/-- Whether `clean_data` raises for the given input. -/
def cleanRaises (now : ℤ) (df : DFrame) : Bool :=
  match cleanData now df with
  | .ok _ => false
  | .error _ => true

/-- A single-row input whose close is the perfectly valid non-null float
`0.0`: `total_return` evaluates to `0/0 - 1 = NaN` on it. -/
def rowC10 : IRow := ⟨0, "A", fin 1, fin 1, fin 1, fin 0, fin 1⟩

/-- 15 bars of one ticker with strictly increasing dates and closes. -/
def rowsC3 : List IRow :=
  [⟨0, "A", fin 1, fin 1, fin 1, fin 0, fin 1⟩,
   ⟨1, "A", fin 1, fin 1, fin 1, fin 1, fin 1⟩,
   ⟨2, "A", fin 1, fin 1, fin 1, fin 2, fin 1⟩,
   ⟨3, "A", fin 1, fin 1, fin 1, fin 3, fin 1⟩,
   ⟨4, "A", fin 1, fin 1, fin 1, fin 4, fin 1⟩,
   ⟨5, "A", fin 1, fin 1, fin 1, fin 5, fin 1⟩,
   ⟨6, "A", fin 1, fin 1, fin 1, fin 6, fin 1⟩,
   ⟨7, "A", fin 1, fin 1, fin 1, fin 7, fin 1⟩,
   ⟨8, "A", fin 1, fin 1, fin 1, fin 8, fin 1⟩,
   ⟨9, "A", fin 1, fin 1, fin 1, fin 9, fin 1⟩,
   ⟨10, "A", fin 1, fin 1, fin 1, fin 10, fin 1⟩,
   ⟨11, "A", fin 1, fin 1, fin 1, fin 11, fin 1⟩,
   ⟨12, "A", fin 1, fin 1, fin 1, fin 12, fin 1⟩,
   ⟨13, "A", fin 1, fin 1, fin 1, fin 13, fin 1⟩,
   ⟨14, "A", fin 1, fin 1, fin 1, fin 14, fin 1⟩]

/-- The close values of `rowsC3`. -/
def dsC3 : List ℚ := [0, 1, 2, 3, 4, 5, 6, 7, 8, 9, 10, 11, 12, 13, 14]

/-- The typical prices `(1 + 1 + close)/3` of `rowsC3`. -/
def tsC6 : List ℚ :=
  [2/3, 1, 4/3, 5/3, 2, 7/3, 8/3, 3, 10/3, 11/3, 4, 13/3, 14/3, 5, 16/3]

/-- The volumes of `rowsC3`, as rationals. -/
def vsC6 : List ℚ := List.replicate 15 1

/-- A one-bar block for ticker `"A"`. -/
def rowC1a : IRow := ⟨0, "A", fin 1, fin 1, fin 1, fin 1, fin 1⟩

/-- A strictly later bar for ticker `"A"` with a different close. -/
def rowC1b : IRow := ⟨1, "A", fin 2, fin 2, fin 2, fin 2, fin 2⟩

/-! ## Theorems -/

theorem inits1_length {α : Type} (xs : List α) : (inits1 xs).length = xs.length := by
  induction xs with
  | nil => rfl
  | cons x xs ih => simp [inits1, ih]

theorem inits1_append {α : Type} (xs ys : List α) :
    inits1 (xs ++ ys) = inits1 xs ++ (inits1 ys).map (fun p => xs ++ p) := by
  induction xs with
  | nil => simp [inits1]
  | cons x xs ih =>
    show [x] :: (inits1 (xs ++ ys)).map (fun p => x :: p) = _
    rw [ih]
    simp only [List.map_append, List.map_map, inits1, List.cons_append, Function.comp_def]

theorem sortLt_perm {α : Type} (lt : α → α → Bool) (xs : List α) :
    (sortLt lt xs).Perm xs := by
  induction xs with
  | nil => simp [sortLt]
  | cons x xs ih =>
    have h : ∀ (l : List α), (insertLt lt x l).Perm (x :: l) := by
      intro l
      induction l with
      | nil => simp [insertLt]
      | cons y ys ihy =>
        simp only [insertLt]
        by_cases h : lt y x
        · simp only [h, if_true]
          exact (ihy.cons y).trans (List.Perm.swap x y ys)
        · simp [h]
    exact (h (sortLt lt xs)).trans (ih.cons x)

theorem sortLt_length {α : Type} (lt : α → α → Bool) (xs : List α) :
    (sortLt lt xs).length = xs.length := (sortLt_perm lt xs).length_eq

/-- Inserting an element that is not strictly after the head goes in front. -/
theorem insertLt_of_sorted {α : Type} (lt : α → α → Bool) (x : α) (l : List α)
    (h : ∀ y ∈ l, lt y x = false) : insertLt lt x l = x :: l := by
  cases l with
  | nil => rfl
  | cons y ys => simp [insertLt, h y (by simp)]

/-- A list already sorted for `lt` (no strict inversion) is fixed by `sortLt`. -/
theorem sortLt_of_sorted {α : Type} (lt : α → α → Bool) (xs : List α)
    (h : xs.Pairwise (fun a b => lt b a = false)) : sortLt lt xs = xs := by
  induction xs with
  | nil => rfl
  | cons x xs ih =>
    have hx : ∀ y ∈ xs, lt y x = false := fun y hy => (List.pairwise_cons.1 h).1 y hy
    have hs := ih (List.pairwise_cons.1 h).2
    simp only [sortLt, hs]
    exact insertLt_of_sorted lt x xs hx

theorem dedupLast_sublist {α κ : Type} [DecidableEq κ] (key : α → κ) (xs : List α) :
    (dedupLast key xs).Sublist xs := by
  induction xs with
  | nil => simp [dedupLast]
  | cons x xs ih =>
    simp only [dedupLast]
    by_cases h : xs.any (fun y => key y = key x)
    · simp only [h, if_true]
      exact ih.trans (List.sublist_cons_self x xs)
    · simp only [h, if_false]
      exact ih.cons₂ x

/-- C4 (counterexample): a zero-row input carrying all seven columns is
cleaned without raising — `clean_data` returns an empty frame — refuting
the claim that it raises on inputs with zero rows. -/
theorem cleanData_no_raise_on_empty :
    cleanRaises 0 ⟨true, true, true, true, true, true, true, []⟩ = false := rfl

/-- C4 (amended): `clean_data` raises exactly when one of the columns
`datetime`, `ticker`, `close` is absent (the `drop_duplicates` and
`dropna` subsets).  Zero-row inputs, inputs missing only `open`, `high`,
`low` or `volume`, and malformed individual cell values never raise. -/
theorem cleanData_raises_iff (now : ℤ) (df : DFrame) :
    cleanRaises now df = (!df.hasDatetime || !df.hasTicker || !df.hasClose) := by
  obtain ⟨hd, ht, ho, hc, hh, hl, hv, rows⟩ := df
  cases hd <;> cases ht <;> cases hc <;>
    simp [cleanRaises, cleanData, removeDuplicates, handleMissingValues,
      Except.bind, bind, pure, Except.pure]

/-! ### Infrastructure lemmas -/

theorem toUpper_idem (c : Char) : (c.toUpper).toUpper = c.toUpper := by
  unfold Char.toUpper
  by_cases h : c.toNat ≥ 97 ∧ c.toNat ≤ 122
  · rw [if_pos h]
    have hv : (c.toNat - 32).isValidChar := by
      left
      omega
    have ht : (Char.ofNat (c.toNat - 32)).toNat = c.toNat - 32 := by
      unfold Char.ofNat
      rw [dif_pos hv]
      rfl
    rw [if_neg]
    rw [ht]
    omega
  · rw [if_neg h, if_neg h]

theorem upStr_idem (s : String) : upStr (upStr s) = upStr s := by
  unfold upStr
  simp only [List.map_map]
  congr 1
  exact List.map_congr_left (fun c _ => toUpper_idem c)

theorem mem_if_filter {α : Type} {p : α → Bool} {flag : Bool} {xs : List α} {r : α}
    (h : r ∈ (if flag then xs.filter p else xs)) :
    r ∈ xs ∧ (flag = true → p r = true) := by
  cases flag <;> simp_all [List.mem_filter]

theorem mem_sortLt {α : Type} (lt : α → α → Bool) (xs : List α) (r : α) :
    r ∈ sortLt lt xs ↔ r ∈ xs := (sortLt_perm lt xs).mem_iff

theorem insertLt_perm {α : Type} (lt : α → α → Bool) (x : α) (l : List α) :
    (insertLt lt x l).Perm (x :: l) := by
  induction l with
  | nil => simp [insertLt]
  | cons y ys ih =>
    simp only [insertLt]
    by_cases h : lt y x = true
    · rw [if_pos h]
      exact (ih.cons y).trans (List.Perm.swap x y ys)
    · rw [if_neg h]

theorem mem_insertLt {α : Type} (lt : α → α → Bool) (x z : α) (l : List α) :
    z ∈ insertLt lt x l ↔ z = x ∨ z ∈ l := by
  rw [(insertLt_perm lt x l).mem_iff]
  simp

section SortKey

variable {α β : Type} [LinearOrder β] (k : α → β)

theorem insertLt_keyLt_pairwise (x : α) (l : List α)
    (h : l.Pairwise (fun a b => k a ≤ k b)) :
    (insertLt (keyLt k) x l).Pairwise (fun a b => k a ≤ k b) := by
  induction l with
  | nil => simp [insertLt]
  | cons y ys ih =>
    have hy : ∀ z ∈ ys, k y ≤ k z := fun z hz => (List.pairwise_cons.1 h).1 z hz
    have hys := (List.pairwise_cons.1 h).2
    simp only [insertLt]
    by_cases hlt : keyLt k y x = true
    · rw [if_pos hlt]
      refine List.pairwise_cons.2 ⟨?_, ih hys⟩
      intro z hz
      rcases (mem_insertLt (keyLt k) x z ys).1 hz with rfl | hz'
      · exact le_of_lt (by simpa [keyLt] using hlt)
      · exact hy z hz'
    · rw [if_neg hlt]
      refine List.pairwise_cons.2 ⟨?_, h⟩
      intro z hz
      have hxy : k x ≤ k y := le_of_not_lt (by simpa [keyLt] using hlt)
      rcases List.mem_cons.1 hz with rfl | hz'
      · exact hxy
      · exact hxy.trans (hy z hz')

theorem sortLt_keyLt_pairwise (xs : List α) :
    (sortLt (keyLt k) xs).Pairwise (fun a b => k a ≤ k b) := by
  induction xs with
  | nil => simp [sortLt]
  | cons x xs ih => exact insertLt_keyLt_pairwise k x _ ih

/-- A list already weakly sorted by the key is fixed by the sort. -/
theorem sortLt_keyLt_of_sorted (xs : List α)
    (h : xs.Pairwise (fun a b => k a ≤ k b)) : sortLt (keyLt k) xs = xs := by
  refine sortLt_of_sorted (keyLt k) xs ?_
  refine h.imp ?_
  intro a b hab
  simp [keyLt, not_lt.2 hab]

theorem filter_insertLt_keyLt (p : α → Bool) (x : α) (l : List α)
    (hl : l.Pairwise (fun a b => k a ≤ k b)) :
    (insertLt (keyLt k) x l).filter p =
      if p x then insertLt (keyLt k) x (l.filter p) else l.filter p := by
  induction l with
  | nil => cases hp : p x <;> simp [insertLt, List.filter, hp]
  | cons y ys ihy =>
    have hy : ∀ z ∈ ys, k y ≤ k z := fun z hz => (List.pairwise_cons.1 hl).1 z hz
    have hys := (List.pairwise_cons.1 hl).2
    simp only [insertLt]
    by_cases hlt : keyLt k y x = true
    · rw [if_pos hlt]
      rw [List.filter_cons, List.filter_cons]
      cases hpy : p y with
      | true =>
        simp only [if_true]
        rw [ihy hys]
        cases hpx : p x with
        | true => simp only [if_true, insertLt, hlt]
        | false => simp
      | false =>
        simp only [Bool.false_eq_true, if_false]
        exact ihy hys
    · rw [if_neg hlt]
      have hxy : k x ≤ k y := le_of_not_lt (by simpa [keyLt] using hlt)
      have hxys : ∀ z ∈ ys.filter p, keyLt k z x = false := by
        intro z hz
        have hz' := (List.mem_filter.1 hz).1
        have : k x ≤ k z := hxy.trans (hy z hz')
        simp [keyLt, not_lt.2 this]
      rw [List.filter_cons]
      cases hpx : p x with
      | true =>
        rw [List.filter_cons]
        cases hpy : p y with
        | true =>
          simp only [if_true, insertLt]
          rw [if_neg (by simp_all)]
        | false =>
          simp only [if_true, Bool.false_eq_true, if_false]
          rw [insertLt_of_sorted (keyLt k) x _ hxys]
      | false =>
        simp only [Bool.false_eq_true, if_false, List.filter_cons]

/-- Stability: filtering commutes with the key sort. -/
theorem filter_sortLt_keyLt (p : α → Bool) (xs : List α) :
    (sortLt (keyLt k) xs).filter p = sortLt (keyLt k) (xs.filter p) := by
  induction xs with
  | nil => simp [sortLt]
  | cons x xs ih =>
    simp only [sortLt]
    rw [filter_insertLt_keyLt k p x _ (sortLt_keyLt_pairwise k xs), ih,
      List.filter_cons]
    cases hpx : p x <;> simp [sortLt]

end SortKey

theorem getLast?_cons_ne {α : Type} (x : α) (l : List α) (h : l ≠ []) :
    (x :: l).getLast? = l.getLast? := by
  cases l with
  | nil => exact absurd rfl h
  | cons b bs => exact List.getLast?_cons_cons

/-- `drop_duplicates(keep='last')`: the rows with a given key that survive
are exactly the last occurrence of that key. -/
theorem dedupLast_filter_key {α κ : Type} [DecidableEq κ] (key : α → κ)
    (xs : List α) (kk : κ) :
    (dedupLast key xs).filter (fun x => decide (key x = kk)) =
      ((xs.filter (fun x => decide (key x = kk))).getLast?).toList := by
  induction xs with
  | nil => simp [dedupLast]
  | cons x xs ih =>
    by_cases hk : key x = kk
    · by_cases hdup : xs.any (fun y => decide (key y = key x)) = true
      · have hne : (xs.filter (fun y => decide (key y = kk))) ≠ [] := by
          rcases List.any_eq_true.1 hdup with ⟨y, hy, hky⟩
          intro hnil
          have : y ∈ xs.filter (fun y => decide (key y = kk)) :=
            List.mem_filter.2 ⟨hy, by simp_all⟩
          simp [hnil] at this
        rw [show dedupLast key (x :: xs) = dedupLast key xs by
          simp [dedupLast, hdup]]
        rw [ih, List.filter_cons]
        rw [if_pos (by simp [hk])]
        rw [getLast?_cons_ne x _ hne]
      · have hnone : xs.filter (fun y => decide (key y = kk)) = [] := by
          rw [List.filter_eq_nil_iff]
          intro y hy
          simp only [decide_eq_true_eq]
          intro hky
          exact hdup (List.any_eq_true.2 ⟨y, hy, by simp [hky, hk]⟩)
        rw [show dedupLast key (x :: xs) = x :: dedupLast key xs by
          simp [dedupLast, hdup]]
        rw [List.filter_cons, List.filter_cons]
        rw [if_pos (by simp [hk]), if_pos (by simp [hk]), ih, hnone]
        simp
    · by_cases hdup : xs.any (fun y => decide (key y = key x)) = true
      · rw [show dedupLast key (x :: xs) = dedupLast key xs by
          simp [dedupLast, hdup]]
        rw [ih, List.filter_cons]
        simp [hk]
      · rw [show dedupLast key (x :: xs) = x :: dedupLast key xs by
          simp [dedupLast, hdup]]
        rw [List.filter_cons, List.filter_cons]
        simp [hk, ih]

/-! ### Stage lemmas for `clean_data` -/

/-- Concrete evaluation: cleaning the one-row frame whose volume is −5
yields the same row with volume clipped to 0. -/
theorem cleanData_dfNegVol :
    cleanData 5 dfNegVol = .ok ⟨true, true, true, true, true, true, true, [rowNegVolOut]⟩ := by
  norm_num [cleanData, dfNegVol, rowNegVol, rowNegVolOut, removeDuplicates,
    handleMissingValues, validateDataTypes, fixDataInconsistencies,
    removeOutliersIqr, validateBusinessRules, dedupLast, keyDT, fillColumn,
    ffillCol, bfillCol, coerceRow, fixRow, maxO, minO, clip0, outlierFilterCol,
    quantileQ, sortLt, insertLt, upStr, rowLt, keyLt, bind, Except.bind, pure,
    Except.pure, List.filter, List.filterMap]
  decide

theorem posPred_some {v : Option ℚ}
    (h : (match v with | some x => decide (0 < x) | none => false) = true) :
    ∃ x, v = some x ∧ 0 < x := by
  cases v <;> simp_all

theorem nonnegPred_some {v : Option ℚ}
    (h : (match v with | some x => decide (0 ≤ x) | none => false) = true) :
    ∃ x, v = some x ∧ 0 ≤ x := by
  cases v <;> simp_all

theorem lePred_some {now : ℤ} {v : Option ℤ}
    (h : (match v with | some x => decide (x ≤ now) | none => false) = true) :
    ∃ x, v = some x ∧ x ≤ now := by
  cases v <;> simp_all

theorem mem_validateBusinessRules (now : ℤ) (d : DFrame) (r : CRow)
    (h : r ∈ (validateBusinessRules now d).rows) :
    r ∈ d.rows ∧
    (d.hasOpen = true → ∃ v, r.open_ = some v ∧ 0 < v) ∧
    (d.hasClose = true → ∃ v, r.close = some v ∧ 0 < v) ∧
    (d.hasHigh = true → ∃ v, r.high = some v ∧ 0 < v) ∧
    (d.hasLow = true → ∃ v, r.low = some v ∧ 0 < v) ∧
    (d.hasVolume = true → ∃ v, r.volume = some v ∧ 0 ≤ v) ∧
    (d.hasDatetime = true → ∃ t, r.datetime = some t ∧ t ≤ now) := by
  simp only [validateBusinessRules] at h
  obtain ⟨h5, hdat⟩ := mem_if_filter h
  obtain ⟨h4, hvol⟩ := mem_if_filter h5
  obtain ⟨h3, hlow⟩ := mem_if_filter h4
  obtain ⟨h2, hhigh⟩ := mem_if_filter h3
  obtain ⟨h1, hclose⟩ := mem_if_filter h2
  obtain ⟨h0, hopen⟩ := mem_if_filter h1
  exact ⟨h0,
    fun hf => posPred_some (hopen hf),
    fun hf => posPred_some (hclose hf),
    fun hf => posPred_some (hhigh hf),
    fun hf => posPred_some (hlow hf),
    fun hf => nonnegPred_some (hvol hf),
    fun hf => lePred_some (hdat hf)⟩

theorem mem_outlierFilterCol (get : CRow → Option ℚ) (rows : List CRow) (r : CRow)
    (h : r ∈ outlierFilterCol get rows) : r ∈ rows := by
  simp only [outlierFilterCol] at h
  rcases hq1 : quantileQ (1/4) (rows.filterMap get) with _ | q1 <;>
    rcases hq3 : quantileQ (3/4) (rows.filterMap get) with _ | q3 <;>
      rw [hq1, hq3] at h <;> exact (List.mem_filter.1 h).1

theorem mem_removeOutliersIqr (d : DFrame) (r : CRow)
    (h : r ∈ (removeOutliersIqr d).rows) : r ∈ d.rows := by
  simp only [removeOutliersIqr] at h
  have step : ∀ (flag : Bool) (get : CRow → Option ℚ) (xs : List CRow) (s : CRow),
      s ∈ (if flag then outlierFilterCol get xs else xs) → s ∈ xs := by
    intro flag get xs s hs
    cases flag with
    | true => exact mem_outlierFilterCol get xs s hs
    | false => exact hs
  exact step _ _ _ _ (step _ _ _ _ (step _ _ _ _ (step _ _ _ _ h)))

theorem maxO_some (x : Option ℚ) (o c : ℚ) :
    ∃ m, maxO x (some o) (some c) = some m ∧ o ≤ m ∧ c ≤ m := by
  cases x with
  | none => exact ⟨max o c, rfl, le_max_left o c, le_max_right o c⟩
  | some a =>
    refine ⟨max (max a o) c, rfl, ?_, ?_⟩
    · exact le_trans (le_max_right a o) (le_max_left _ c)
    · exact le_max_right _ c

theorem minO_some (x : Option ℚ) (o c : ℚ) :
    ∃ m, minO x (some o) (some c) = some m ∧ m ≤ o ∧ m ≤ c := by
  cases x with
  | none => exact ⟨min o c, rfl, min_le_left o c, min_le_right o c⟩
  | some a =>
    refine ⟨min (min a o) c, rfl, ?_, ?_⟩
    · exact le_trans (min_le_left _ c) (min_le_right a o)
    · exact min_le_right _ c

/-- `fixRow` leaves `datetime`, `ticker`, `open` and `close` unchanged. -/
theorem fixRow_base (hasVol : Bool) (r : CRow) :
    (fixRow hasVol r).datetime = r.datetime ∧ (fixRow hasVol r).ticker = r.ticker ∧
    (fixRow hasVol r).open_ = r.open_ ∧ (fixRow hasVol r).close = r.close := by
  cases hasVol <;> simp [fixRow]

theorem fixRow_high (hasVol : Bool) (r : CRow) :
    (fixRow hasVol r).high = maxO r.high r.open_ r.close := by
  cases hasVol <;> simp [fixRow]

theorem fixRow_low (hasVol : Bool) (r : CRow) :
    (fixRow hasVol r).low = minO r.low r.open_ r.close := by
  cases hasVol <;> simp [fixRow]

/-- Invariant of the post-dedup, post-missing tail of `clean_data`
(type coercion, repair, outliers, business rules, sort), for an arbitrary
intermediate row list `rows2`. -/
theorem cleanTail_invariant (now : ℤ) (ho hh hl hv : Bool) (rows2 : List CRow)
    (r : CRow)
    (hr : r ∈ sortLt rowLt (validateBusinessRules now (removeOutliersIqr
      (fixDataInconsistencies (validateDataTypes
        ⟨true, true, ho, true, hh, hl, hv, rows2⟩)))).rows) :
    (∃ t, r.datetime = some t ∧ t ≤ now) ∧
    (∃ s, r.ticker = some s ∧ upStr s = s) ∧
    (∃ v, r.close = some v ∧ 0 < v) ∧
    (ho = true → ∃ v, r.open_ = some v ∧ 0 < v) ∧
    (hh = true → ∃ v, r.high = some v ∧ 0 < v) ∧
    (hl = true → ∃ v, r.low = some v ∧ 0 < v) ∧
    (hv = true → ∃ v, r.volume = some v ∧ 0 ≤ v) ∧
    ((ho && hh && hl) = true →
      ∃ o c h l, r.open_ = some o ∧ r.close = some c ∧ r.high = some h ∧
        r.low = some l ∧ o ≤ h ∧ c ≤ h ∧ l ≤ o ∧ l ≤ c) := by
  have h3 : validateDataTypes ⟨true, true, ho, true, hh, hl, hv, rows2⟩ =
      ⟨true, true, ho, true, hh, hl, hv, rows2.map coerceRow⟩ := by
    simp [validateDataTypes]
  rw [h3] at hr
  by_cases hf4 : (ho && hh && hl) = true
  · simp only [Bool.and_eq_true] at hf4
    obtain ⟨⟨hho, hhh⟩, hhl⟩ := hf4
    subst hho
    subst hhh
    subst hhl
    have h4 : fixDataInconsistencies ⟨true, true, true, true, true, true, hv,
        rows2.map coerceRow⟩ =
        ⟨true, true, true, true, true, true, hv,
          (rows2.map coerceRow).map (fixRow hv)⟩ := by
      simp only [fixDataInconsistencies, Bool.and_self, if_true]
    rw [h4] at hr
    have hr6 := (mem_sortLt rowLt _ r).1 hr
    obtain ⟨hr5, hopen, hclose, hhigh, hlow, hvol, hdat⟩ :=
      mem_validateBusinessRules now _ r hr6
    have hr4 : r ∈ (rows2.map coerceRow).map (fixRow hv) :=
      mem_removeOutliersIqr _ r hr5
    obtain ⟨r0, hr0mem, hr0⟩ := List.mem_map.1 hr4
    obtain ⟨r1, hr1mem, hr1⟩ := List.mem_map.1 hr0mem
    have hbase := fixRow_base hv r0
    refine ⟨hdat rfl, ?_, hclose rfl, fun _ => hopen rfl, fun _ => hhigh rfl,
      fun _ => hlow rfl, fun hhv => hvol hhv, fun _ => ?_⟩
    · refine ⟨upStr (r1.ticker.getD "nan"), ?_, upStr_idem _⟩
      rw [← hr0, hbase.2.1, ← hr1]
      rfl
    · obtain ⟨o, hoeq, hopos⟩ := hopen rfl
      obtain ⟨c, hceq, hcpos⟩ := hclose rfl
      obtain ⟨hval, hheq, hhpos⟩ := hhigh rfl
      obtain ⟨lval, hleq, hlpos⟩ := hlow rfl
      have hro : r0.open_ = some o := by rw [← hbase.2.2.1, hr0, hoeq]
      have hrc : r0.close = some c := by rw [← hbase.2.2.2, hr0, hceq]
      obtain ⟨m, hmax, hom, hcm⟩ := maxO_some r0.high o c
      obtain ⟨m', hmin, hmo, hmc⟩ := minO_some r0.low o c
      have hhm : hval = m := by
        have hhigh2 : r.high = some m := by
          rw [← hr0, fixRow_high, hro, hrc, hmax]
        rw [hheq] at hhigh2
        exact Option.some.inj hhigh2
      have hlm : lval = m' := by
        have hlow2 : r.low = some m' := by
          rw [← hr0, fixRow_low, hro, hrc, hmin]
        rw [hleq] at hlow2
        exact Option.some.inj hlow2
      exact ⟨o, c, hval, lval, hoeq, hceq, hheq, hleq,
        hhm ▸ hom, hhm ▸ hcm, hlm ▸ hmo, hlm ▸ hmc⟩
  · have h4 : fixDataInconsistencies ⟨true, true, ho, true, hh, hl, hv,
        rows2.map coerceRow⟩ =
        ⟨true, true, ho, true, hh, hl, hv, rows2.map coerceRow⟩ := by
      simp only [fixDataInconsistencies]
      rw [if_neg]
      intro hcontra
      exact hf4 (by revert hcontra; cases ho <;> cases hh <;> cases hl <;> simp)
    rw [h4] at hr
    have hr6 := (mem_sortLt rowLt _ r).1 hr
    obtain ⟨hr5, hopen, hclose, hhigh, hlow, hvol, hdat⟩ :=
      mem_validateBusinessRules now _ r hr6
    have hr4 : r ∈ rows2.map coerceRow := mem_removeOutliersIqr _ r hr5
    obtain ⟨r1, hr1mem, hr1⟩ := List.mem_map.1 hr4
    refine ⟨hdat rfl, ?_, hclose rfl, fun hho => hopen hho, fun hhh => hhigh hhh,
      fun hhl => hlow hhl, fun hhv => hvol hhv, fun habs => absurd habs hf4⟩
    refine ⟨upStr (r1.ticker.getD "nan"), ?_, upStr_idem _⟩
    rw [← hr1]
    rfl

/-- C5 (counterexample): the valid one-row input whose volume is −5 is
not dropped by `clean_data`: the row survives into the output with its
volume altered (clipped) to 0 by the repair stage, refuting the claim
that such a row is dropped in the business-rule validation stage. -/
theorem negVolume_row_clipped_not_dropped :
    rowNegVol.volume = some (-5) ∧
    ∃ out, cleanData 5 dfNegVol = .ok out ∧
      out.rows = [{ rowNegVol with volume := some 0 }] :=
  ⟨rfl, ⟨true, true, true, true, true, true, true, [rowNegVolOut]⟩,
    cleanData_dfNegVol, rfl⟩

/-- Every row of the cleaned output: datetime present and not in the
future, ticker present and upper-case-normalized, close present and
positive; per present column: positive prices, non-negative volume; and
when all four price columns are present the OHLC repair invariant. -/
theorem cleanData_invariant (now : ℤ) (df out : DFrame)
    (hok : cleanData now df = .ok out) (r : CRow) (hr : r ∈ out.rows) :
    (∃ t, r.datetime = some t ∧ t ≤ now) ∧
    (∃ s, r.ticker = some s ∧ upStr s = s) ∧
    (∃ v, r.close = some v ∧ 0 < v) ∧
    (df.hasOpen = true → ∃ v, r.open_ = some v ∧ 0 < v) ∧
    (df.hasHigh = true → ∃ v, r.high = some v ∧ 0 < v) ∧
    (df.hasLow = true → ∃ v, r.low = some v ∧ 0 < v) ∧
    (df.hasVolume = true → ∃ v, r.volume = some v ∧ 0 ≤ v) ∧
    ((df.hasOpen && df.hasHigh && df.hasLow) = true →
      ∃ o c h l, r.open_ = some o ∧ r.close = some c ∧ r.high = some h ∧
        r.low = some l ∧ o ≤ h ∧ c ≤ h ∧ l ≤ o ∧ l ≤ c) := by
  obtain ⟨hd, ht, ho, hc, hh, hl, hv, rows⟩ := df
  cases hd <;> cases ht <;> cases hc <;>
    simp only [cleanData, removeDuplicates, handleMissingValues, Bool.and_self,
      Bool.true_and, Bool.and_true, Bool.false_and, Bool.and_false, if_true,
      if_false, bind, Except.bind, pure, Except.pure, reduceCtorEq] at hok
  case true.true.true =>
    rw [Except.ok.injEq] at hok
    subst hok
    exact cleanTail_invariant now ho hh hl hv _ r hr

/-- C8: OHLC repair invariant.  When the four price columns are present,
every row of the cleaned output whose `open` and `close` are non-null
satisfies `high ≥ open`, `high ≥ close`, `low ≤ open`, `low ≤ close`
(the repair stage establishes it; later stages only filter rows). -/
theorem cleanData_ohlc_repair (now : ℤ) (df out : DFrame)
    (hox : df.hasOpen = true) (hhx : df.hasHigh = true) (hlx : df.hasLow = true)
    (hok : cleanData now df = .ok out) :
    ∀ r ∈ out.rows, ∀ o c, r.open_ = some o → r.close = some c →
      ∃ h l, r.high = some h ∧ r.low = some l ∧
        o ≤ h ∧ c ≤ h ∧ l ≤ o ∧ l ≤ c := by
  intro r hr o c hoeq hceq
  obtain ⟨-, -, -, -, -, -, -, hohlc⟩ := cleanData_invariant now df out hok r hr
  obtain ⟨o', c', hval, lval, ho', hc', hh', hl', p1, p2, p3, p4⟩ :=
    hohlc (by simp [hox, hhx, hlx])
  have heo : o = o' := by rw [hoeq] at ho'; exact Option.some.inj ho'
  have hec : c = c' := by rw [hceq] at hc'; exact Option.some.inj hc'
  subst heo
  subst hec
  exact ⟨hval, lval, hh', hl', p1, p2, p3, p4⟩

/-- C8 (witness): the repair invariant instantiated on the concrete
one-row frame `dfNegVol`. -/
theorem cleanData_ohlc_repair_witness :
    ∃ h l, rowNegVolOut.high = some h ∧ rowNegVolOut.low = some l ∧
      (1 : ℚ) ≤ h ∧ (1 : ℚ) ≤ h ∧ l ≤ 1 ∧ l ≤ 1 :=
  cleanData_ohlc_repair 5 dfNegVol
    ⟨true, true, true, true, true, true, true, [rowNegVolOut]⟩
    rfl rfl rfl cleanData_dfNegVol rowNegVolOut (by simp) 1 1 rfl rfl

/-! ### Volume-clip commutation (negative volume is repaired, not dropped) -/

theorem dedupLast_map_of_key {α κ : Type} [DecidableEq κ] (key : α → κ)
    (f : α → α) (hf : ∀ x, key (f x) = key x) (xs : List α) :
    dedupLast key (xs.map f) = (dedupLast key xs).map f := by
  induction xs with
  | nil => rfl
  | cons x xs ih =>
    simp only [List.map_cons, dedupLast, List.any_map]
    have hcond : (xs.any ((fun y => decide (key y = key (f x))) ∘ f)) =
        (xs.any (fun y => decide (key y = key x))) := by
      congr 1
      funext y
      simp [Function.comp, hf]
    rw [hcond]
    by_cases hdup : xs.any (fun y => decide (key y = key x)) = true
    · rw [if_pos hdup, if_pos hdup, ih]
    · rw [if_neg hdup, if_neg hdup, List.map_cons, ih]

theorem ffillCol_map_untouched (get : CRow → Option ℚ)
    (set : CRow → Option ℚ → CRow) (f : CRow → CRow)
    (hget : ∀ r, get (f r) = get r)
    (hset : ∀ r v, set (f r) v = f (set r v))
    (htick : ∀ r, (f r).ticker = r.ticker) :
    ∀ (xs : List CRow) (carry : List (Option String × ℚ)),
      ffillCol get set (xs.map f) carry = (ffillCol get set xs carry).map f := by
  intro xs
  induction xs with
  | nil => intro carry; rfl
  | cons r rs ih =>
    intro carry
    simp only [List.map_cons, ffillCol, hget r, htick r]
    cases hv : get r with
    | some v => simp only [ih, List.map_cons]
    | none =>
      cases hfind : (carry.find? (fun p => decide (p.1 = r.ticker))).map (·.2) with
      | some w => simp only [hset r (some w), ih, List.map_cons]
      | none => simp only [ih, List.map_cons]

theorem fillColumn_map_untouched (get : CRow → Option ℚ)
    (set : CRow → Option ℚ → CRow) (f : CRow → CRow)
    (hget : ∀ r, get (f r) = get r)
    (hset : ∀ r v, set (f r) v = f (set r v))
    (htick : ∀ r, (f r).ticker = r.ticker) (xs : List CRow) :
    fillColumn get set (xs.map f) = (fillColumn get set xs).map f := by
  unfold fillColumn bfillCol
  rw [ffillCol_map_untouched get set f hget hset htick xs []]
  rw [← List.map_reverse, ffillCol_map_untouched get set f hget hset htick _ [],
    List.map_reverse]

theorem ffillCol_map_clip :
    ∀ (xs : List CRow) (carry : List (Option String × ℚ)),
      ffillCol (fun r => r.volume) (fun r v => { r with volume := v })
        (xs.map clipRow) (carry.map (fun p => (p.1, max p.2 0))) =
      (ffillCol (fun r => r.volume) (fun r v => { r with volume := v }) xs
        carry).map clipRow := by
  intro xs
  induction xs with
  | nil => intro carry; rfl
  | cons r rs ih =>
    intro carry
    cases hv : r.volume with
    | some v =>
      have hcv : (clipRow r).volume = some (max v 0) := by
        simp [clipRow, clip0, hv]
      simp only [List.map_cons, ffillCol, hv, hcv]
      have hcarry : (((clipRow r).ticker, max v 0) ::
            carry.map (fun p => (p.1, max p.2 0))) =
          ((r.ticker, v) :: carry).map (fun p => (p.1, max p.2 0)) := rfl
      rw [hcarry, ih]
    | none =>
      have hcv : (clipRow r).volume = none := by simp [clipRow, clip0, hv]
      simp only [List.map_cons, ffillCol, hv, hcv]
      have hfind : ((carry.map (fun p => (p.1, max p.2 0))).find?
            (fun p => decide (p.1 = (clipRow r).ticker))).map (·.2) =
          ((carry.find? (fun p => decide (p.1 = r.ticker))).map (·.2)).map
            (fun w => max w 0) := by
        rw [List.find?_map]
        have hcp : ((fun p : Option String × ℚ => decide (p.1 = (clipRow r).ticker)) ∘
            (fun p : Option String × ℚ => (p.1, max p.2 0))) =
            (fun p : Option String × ℚ => decide (p.1 = r.ticker)) := by
          funext p
          rfl
        rw [hcp]
        cases carry.find? (fun p : Option String × ℚ => decide (p.1 = r.ticker)) <;> rfl
      rw [hfind]
      cases hlook : (carry.find? (fun p => decide (p.1 = r.ticker))).map (·.2) with
      | some w =>
        simp only [Option.map_some']
        rw [ih, List.map_cons]
        congr 1
      | none =>
        simp only [Option.map_none']
        rw [ih, List.map_cons]

theorem fillColumn_map_clip (xs : List CRow) :
    fillColumn (fun r => r.volume) (fun r v => { r with volume := v })
      (xs.map clipRow) =
    (fillColumn (fun r => r.volume) (fun r v => { r with volume := v }) xs).map
      clipRow := by
  unfold fillColumn bfillCol
  have h1 : ∀ ys : List CRow,
      ffillCol (fun r => r.volume) (fun r v => { r with volume := v })
        (ys.map clipRow) [] =
      (ffillCol (fun r => r.volume) (fun r v => { r with volume := v }) ys []).map
        clipRow := fun ys => ffillCol_map_clip ys []
  rw [h1 xs, ← List.map_reverse, h1 _, List.map_reverse]

theorem coerceRow_clipRow (r : CRow) :
    coerceRow (clipRow r) = clipRow (coerceRow r) := by
  cases r
  rfl

theorem fixRow_clipRow (r : CRow) : fixRow true (clipRow r) = fixRow true r := by
  cases r with
  | mk dt tk o h l c v =>
    simp only [fixRow, clipRow, clip0, maxO, minO, if_true]
    cases v with
    | none => rfl
    | some q =>
      simp [max_assoc]

set_option maxHeartbeats 1000000 in
/-- C5 (amended): negative volume is repaired, not dropped.  When all
seven columns are present, `clean_data` of an input equals `clean_data`
of the same input with every volume pre-clipped at 0: the repair stage's
`volume.clip(lower=0)` makes the runs coincide, so no row is ever dropped
on account of a negative volume (the example `dfNegVol` survives with
volume 0, and the business volume filter only removes null volumes). -/
theorem cleanData_clipVolume_comm (now : ℤ) (df : DFrame)
    (h1 : df.hasDatetime = true) (h2 : df.hasTicker = true)
    (h3 : df.hasOpen = true) (h4 : df.hasClose = true) (h5 : df.hasHigh = true)
    (h6 : df.hasLow = true) (h7 : df.hasVolume = true) :
    cleanData now (clipVolumeRows df) = cleanData now df := by
  obtain ⟨hd, ht, ho, hc, hh, hl, hv, rows⟩ := df
  simp only at h1 h2 h3 h4 h5 h6 h7
  subst h1
  subst h2
  subst h3
  subst h4
  subst h5
  subst h6
  subst h7
  simp only [cleanData, clipVolumeRows, removeDuplicates, handleMissingValues,
    Bool.and_self, if_true, bind, Except.bind, pure, Except.pure]
  rw [dedupLast_map_of_key keyDT clipRow (fun _ => rfl) rows]
  rw [List.filter_map]
  have hpred : ((fun r : CRow =>
      r.datetime.isSome && r.ticker.isSome && r.close.isSome) ∘ clipRow) =
      (fun r : CRow => r.datetime.isSome && r.ticker.isSome && r.close.isSome) := by
    funext r
    rfl
  rw [hpred]
  rw [fillColumn_map_untouched (fun r => r.open_) (fun r v => { r with open_ := v })
    clipRow (fun _ => rfl) (fun r v => by cases r; rfl) (fun _ => rfl)]
  rw [fillColumn_map_untouched (fun r => r.high) (fun r v => { r with high := v })
    clipRow (fun _ => rfl) (fun r v => by cases r; rfl) (fun _ => rfl)]
  rw [fillColumn_map_untouched (fun r => r.low) (fun r v => { r with low := v })
    clipRow (fun _ => rfl) (fun r v => by cases r; rfl) (fun _ => rfl)]
  rw [fillColumn_map_clip]
  simp only [validateDataTypes, fixDataInconsistencies, Bool.and_self, if_true]
  simp only [List.map_map]
  have hcomp : (fixRow true ∘ (coerceRow ∘ clipRow)) = (fixRow true ∘ coerceRow) := by
    funext r
    simp only [Function.comp]
    rw [coerceRow_clipRow, fixRow_clipRow]
  rw [hcomp]

/-- C5 (witness): the commutation applied to the concrete negative-volume
frame. -/
theorem cleanData_clipVolume_comm_witness :
    cleanData 5 (clipVolumeRows dfNegVol) = cleanData 5 dfNegVol :=
  cleanData_clipVolume_comm 5 dfNegVol rfl rfl rfl rfl rfl rfl rfl

/-! ### Key uniqueness after cleaning -/

theorem dedupLast_pairwise {α κ : Type} [DecidableEq κ] (key : α → κ)
    (xs : List α) : (dedupLast key xs).Pairwise (fun a b => key a ≠ key b) := by
  induction xs with
  | nil => simp [dedupLast]
  | cons x xs ih =>
    by_cases hdup : xs.any (fun y => decide (key y = key x)) = true
    · simpa [dedupLast, hdup] using ih
    · rw [show dedupLast key (x :: xs) = x :: dedupLast key xs by
        simp [dedupLast, hdup]]
      refine List.pairwise_cons.2 ⟨?_, ih⟩
      intro y hy
      have hyxs : y ∈ xs := (dedupLast_sublist key xs).mem hy
      intro hxy
      exact hdup (List.any_eq_true.2 ⟨y, hyxs, by simp [hxy]⟩)

theorem ffillCol_keys (get : CRow → Option ℚ) (set : CRow → Option ℚ → CRow)
    (hset : ∀ r v, keyDT (set r v) = keyDT r) :
    ∀ (xs : List CRow) (carry : List (Option String × ℚ)),
      (ffillCol get set xs carry).map keyDT = xs.map keyDT := by
  intro xs
  induction xs with
  | nil => intro c; rfl
  | cons r rs ih =>
    intro c
    simp only [ffillCol]
    cases hv : get r with
    | some v => simp only [List.map_cons, ih]
    | none =>
      cases hfind : (c.find? (fun p => decide (p.1 = r.ticker))).map (·.2) with
      | some w => simp only [List.map_cons, ih, hset r (some w)]
      | none => simp only [List.map_cons, ih]

theorem fillColumn_keys (get : CRow → Option ℚ) (set : CRow → Option ℚ → CRow)
    (hset : ∀ r v, keyDT (set r v) = keyDT r) (xs : List CRow) :
    (fillColumn get set xs).map keyDT = xs.map keyDT := by
  unfold fillColumn bfillCol
  rw [List.map_reverse, ffillCol_keys get set hset, List.map_reverse,
    List.reverse_reverse, ffillCol_keys get set hset]

theorem fixRow_keyDT (hv : Bool) (r : CRow) : keyDT (fixRow hv r) = keyDT r := by
  cases hv <;> rfl

theorem if_filter_sublist {α : Type} (flag : Bool) (p : α → Bool) (xs : List α) :
    (if flag then xs.filter p else xs).Sublist xs := by
  cases flag with
  | true => exact List.filter_sublist xs
  | false => exact List.Sublist.refl xs

theorem outlierFilterCol_sublist (get : CRow → Option ℚ) (rows : List CRow) :
    (outlierFilterCol get rows).Sublist rows := by
  simp only [outlierFilterCol]
  cases quantileQ (1/4) (rows.filterMap get) <;>
    cases quantileQ (3/4) (rows.filterMap get) <;>
      exact List.filter_sublist rows

theorem removeOutliersIqr_sublist (d : DFrame) :
    (removeOutliersIqr d).rows.Sublist d.rows := by
  simp only [removeOutliersIqr]
  have step : ∀ (flag : Bool) (get : CRow → Option ℚ) (xs : List CRow),
      (if flag then outlierFilterCol get xs else xs).Sublist xs := by
    intro flag get xs
    cases flag with
    | true => exact outlierFilterCol_sublist get xs
    | false => exact List.Sublist.refl xs
  exact ((step _ _ _).trans ((step _ _ _).trans ((step _ _ _).trans (step _ _ _))))

theorem validateBusinessRules_sublist (now : ℤ) (d : DFrame) :
    (validateBusinessRules now d).rows.Sublist d.rows := by
  simp only [validateBusinessRules]
  exact ((if_filter_sublist _ _ _).trans ((if_filter_sublist _ _ _).trans
    ((if_filter_sublist _ _ _).trans ((if_filter_sublist _ _ _).trans
      ((if_filter_sublist _ _ _).trans (if_filter_sublist _ _ _))))))

/-- Key list preserved by a conditional fill of one numeric column. -/
theorem if_fillColumn_keys (flag : Bool) (get : CRow → Option ℚ)
    (set : CRow → Option ℚ → CRow) (hset : ∀ r v, keyDT (set r v) = keyDT r)
    (xs : List CRow) :
    (if flag then fillColumn get set xs else xs).map keyDT = xs.map keyDT := by
  cases flag with
  | true => exact fillColumn_keys get set hset xs
  | false => rfl

/-- The post-missing tail of `clean_data` keeps `(datetime, ticker)` keys
pairwise distinct whenever the incoming rows have pairwise distinct
normalized keys. -/
theorem cleanTail_pairwise (now : ℤ) (ho hh hl hv : Bool) (rows2 : List CRow)
    (hP : rows2.Pairwise (fun a b => keyDT (coerceRow a) ≠ keyDT (coerceRow b))) :
    (sortLt rowLt (validateBusinessRules now (removeOutliersIqr
      (fixDataInconsistencies (validateDataTypes
        ⟨true, true, ho, true, hh, hl, hv, rows2⟩)))).rows).Pairwise
      (fun a b => keyDT a ≠ keyDT b) := by
  have h3 : validateDataTypes ⟨true, true, ho, true, hh, hl, hv, rows2⟩ =
      ⟨true, true, ho, true, hh, hl, hv, rows2.map coerceRow⟩ := by
    simp [validateDataTypes]
  rw [h3]
  have hP3 : (rows2.map coerceRow).Pairwise (fun a b => keyDT a ≠ keyDT b) :=
    List.pairwise_map.2 hP
  have hP4 : (fixDataInconsistencies
      ⟨true, true, ho, true, hh, hl, hv, rows2.map coerceRow⟩).rows.Pairwise
      (fun a b => keyDT a ≠ keyDT b) := by
    simp only [fixDataInconsistencies]
    split
    · refine List.pairwise_map.2 (hP3.imp ?_)
      intro a b hne
      rw [fixRow_keyDT, fixRow_keyDT]
      exact hne
    · exact hP3
  have hP5 := List.Pairwise.sublist (removeOutliersIqr_sublist _) hP4
  have hP6 := List.Pairwise.sublist (validateBusinessRules_sublist now _) hP5
  exact ((sortLt_perm rowLt _).pairwise_iff (fun h he => h he.symm)).2 hP6

/-- C7 (amended): duplicate resolution is keyed on the raw
`(datetime, ticker)` values: the dedup stage keeps exactly the last input
occurrence of each raw key; and the cleaned output has pairwise-distinct
`(datetime, ticker)` keys provided no two input rows with equal datetime
acquire the same ticker only through upper-casing (without that proviso
the output can contain equal keys, as `dfCaseDup` shows). -/
theorem cleanData_key_uniqueness (now : ℤ) (df out : DFrame)
    (hok : cleanData now df = .ok out)
    (H : ∀ r ∈ df.rows, ∀ s ∈ df.rows, r.datetime = s.datetime →
      upStr (r.ticker.getD "nan") = upStr (s.ticker.getD "nan") →
      r.ticker = s.ticker) :
    out.rows.Pairwise (fun a b => keyDT a ≠ keyDT b) ∧
    (∀ k, (dedupLast keyDT df.rows).filter (fun r => decide (keyDT r = k)) =
      ((df.rows.filter (fun r => decide (keyDT r = k))).getLast?).toList) := by
  refine ⟨?_, fun k => dedupLast_filter_key keyDT df.rows k⟩
  obtain ⟨hd, ht, ho, hc, hh, hl, hv, rows⟩ := df
  cases hd <;> cases ht <;> cases hc <;>
    simp only [cleanData, removeDuplicates, handleMissingValues, Bool.and_self,
      Bool.true_and, Bool.and_true, Bool.false_and, Bool.and_false, if_true,
      if_false, bind, Except.bind, pure, Except.pure, reduceCtorEq] at hok
  case true.true.true =>
    rw [Except.ok.injEq] at hok
    subst hok
    refine cleanTail_pairwise now ho hh hl hv _ ?_
    -- transfer to the level of key lists
    have htrans : ∀ (Y : List CRow),
        (Y.map keyDT).Pairwise (fun u v => normKey u ≠ normKey v) →
        Y.Pairwise (fun a b => keyDT (coerceRow a) ≠ keyDT (coerceRow b)) := by
      intro Y h
      have h2 : Y.Pairwise (fun a b => normKey (keyDT a) ≠ normKey (keyDT b)) :=
        (@List.pairwise_map CRow _ keyDT (fun u v => normKey u ≠ normKey v) Y).1 h
      exact h2
    apply htrans
    rw [if_fillColumn_keys hv (fun r => r.volume)
      (fun r v => { r with volume := v }) (fun r v => rfl)]
    rw [if_fillColumn_keys hl (fun r => r.low)
      (fun r v => { r with low := v }) (fun r v => rfl)]
    rw [if_fillColumn_keys hh (fun r => r.high)
      (fun r v => { r with high := v }) (fun r v => rfl)]
    rw [if_fillColumn_keys ho (fun r => r.open_)
      (fun r v => { r with open_ := v }) (fun r v => rfl)]
    -- now over the keys of the deduplicated, critically-filtered rows
    have hP1 : ((dedupLast keyDT rows).filter
        (fun r => r.datetime.isSome && r.ticker.isSome && r.close.isSome)).Pairwise
        (fun a b => keyDT a ≠ keyDT b) :=
      List.Pairwise.sublist (List.filter_sublist _) (dedupLast_pairwise keyDT rows)
    have hKP1 : (((dedupLast keyDT rows).filter
        (fun r => r.datetime.isSome && r.ticker.isSome && r.close.isSome)).map
          keyDT).Pairwise (fun u v => u ≠ v) := List.pairwise_map.2 hP1
    refine List.Pairwise.imp_of_mem ?_ hKP1
    intro u v hu hv' hne heq
    obtain ⟨su, hsu, hsueq⟩ := List.mem_map.1 hu
    obtain ⟨sv, hsv, hsveq⟩ := List.mem_map.1 hv'
    have hsu' : su ∈ rows :=
      (dedupLast_sublist keyDT rows).subset ((List.filter_sublist _).subset hsu)
    have hsv' : sv ∈ rows :=
      (dedupLast_sublist keyDT rows).subset ((List.filter_sublist _).subset hsv)
    have hdteq : su.datetime = sv.datetime := by
      have h1 := congrArg Prod.fst heq
      rw [← hsueq, ← hsveq] at h1
      exact h1
    have hupeq : upStr (su.ticker.getD "nan") = upStr (sv.ticker.getD "nan") := by
      have h2 := congrArg Prod.snd heq
      rw [← hsueq, ← hsveq] at h2
      exact Option.some.inj h2
    have htick := H su hsu' sv hsv' hdteq hupeq
    apply hne
    rw [← hsueq, ← hsveq]
    unfold keyDT
    rw [hdteq, htick]

theorem upStr_a : upStr "a" = "A" := by decide

theorem upStr_A : upStr "A" = "A" := by decide

/-- Concrete evaluation: cleaning `dfCaseDup` keeps both rows and
normalizes both tickers to `"A"`. -/
theorem cleanData_dfCaseDup_eval : cleanData 5 dfCaseDup = .ok dfCaseOut := by
  norm_num [cleanData, dfCaseDup, dfCaseOut, rowCase, removeDuplicates,
    handleMissingValues, validateDataTypes, fixDataInconsistencies,
    removeOutliersIqr, validateBusinessRules, dedupLast, keyDT, fillColumn,
    ffillCol, bfillCol, coerceRow, fixRow, maxO, minO, clip0, outlierFilterCol,
    quantileQ, sortLt, insertLt, upStr_a, upStr_A, lt_self_iff_false, rowLt,
    keyLt, bind, Except.bind, pure, Except.pure, List.filter, List.filterMap]

/-- C7 (counterexample): for the input `dfCaseDup`, whose two rows carry
tickers `"a"` and `"A"` on the same datetime, the cleaned output contains
two rows with the identical normalized key `(0, "A")`: `(datetime,
ticker)` with upper-cased ticker is not unique in the output, because
`drop_duplicates` runs before the upper-casing. -/
theorem cleanData_case_collision :
    ∃ out, cleanData 5 dfCaseDup = .ok out ∧
      out.rows.map keyDT = [(some 0, some "A"), (some 0, some "A")] :=
  ⟨dfCaseOut, cleanData_dfCaseDup_eval, rfl⟩

/-- Concrete evaluation: cleaning `dfDupKey` keeps only the last
occurrence of the repeated `(0, "A")` key. -/
theorem cleanData_dfDupKey :
    cleanData 5 dfDupKey = .ok ⟨true, true, true, true, true, true, true,
      [⟨some 0, some "A", some 2, some 2, some 2, some 2, some 2⟩]⟩ := by
  norm_num [cleanData, dfDupKey, removeDuplicates, handleMissingValues,
    validateDataTypes, fixDataInconsistencies, removeOutliersIqr,
    validateBusinessRules, dedupLast, keyDT, fillColumn, ffillCol, bfillCol,
    coerceRow, fixRow, maxO, minO, clip0, outlierFilterCol, quantileQ, sortLt,
    insertLt, upStr_A, lt_self_iff_false, rowLt, keyLt, bind, Except.bind,
    pure, Except.pure, List.filter, List.filterMap]

/-- C7 (witness): the amended key-uniqueness theorem applied to the
concrete two-row frame `dfDupKey` with a repeated raw key. -/
theorem cleanData_key_uniqueness_witness :
    (⟨true, true, true, true, true, true, true,
      [⟨some 0, some "A", some 2, some 2, some 2, some 2, some 2⟩]⟩ :
        DFrame).rows.Pairwise (fun a b => keyDT a ≠ keyDT b) ∧
    (∀ k, (dedupLast keyDT dfDupKey.rows).filter (fun r => decide (keyDT r = k)) =
      ((dfDupKey.rows.filter (fun r => decide (keyDT r = k))).getLast?).toList) :=
  cleanData_key_uniqueness 5 dfDupKey _ cleanData_dfDupKey (by decide)

/-! ### Second-pass behavior of `clean_data` -/

/-- Forward fill is the identity on a column with no missing values. -/
theorem ffillCol_of_isSome (get : CRow → Option ℚ) (set : CRow → Option ℚ → CRow) :
    ∀ (xs : List CRow) (carry : List (Option String × ℚ)),
      (∀ r ∈ xs, (get r).isSome = true) → ffillCol get set xs carry = xs := by
  intro xs
  induction xs with
  | nil => intro c _; rfl
  | cons r rs ih =>
    intro c hall
    have hr := hall r (by simp)
    obtain ⟨v, hv⟩ := Option.isSome_iff_exists.1 hr
    simp only [ffillCol, hv]
    rw [ih _ (fun s hs => hall s (by simp [hs]))]

/-- ffill-then-bfill is the identity on a column with no missing values. -/
theorem fillColumn_of_isSome (get : CRow → Option ℚ) (set : CRow → Option ℚ → CRow)
    (xs : List CRow) (hall : ∀ r ∈ xs, (get r).isSome = true) :
    fillColumn get set xs = xs := by
  unfold fillColumn bfillCol
  rw [ffillCol_of_isSome get set xs [] hall,
    ffillCol_of_isSome get set xs.reverse []
      (fun r hr => hall r (List.mem_reverse.1 hr)),
    List.reverse_reverse]

/-- Ticker coercion is the identity on an already-normalized row. -/
theorem coerceRow_fixed (r : CRow) (s : String) (hs : r.ticker = some s)
    (hup : upStr s = s) : coerceRow r = r := by
  cases r with
  | mk dt tk o h l c v =>
    simp only at hs
    subst hs
    simp [coerceRow, hup]

/-- The repair is the identity on a row already satisfying the OHLC
invariant with a non-negative volume. -/
theorem fixRow_fixed (hv : Bool) (r : CRow) (o c h l : ℚ)
    (hoe : r.open_ = some o) (hce : r.close = some c) (hhe : r.high = some h)
    (hle : r.low = some l) (h1 : o ≤ h) (h2 : c ≤ h) (h3 : l ≤ o) (h4 : l ≤ c)
    (hvol : hv = true → ∃ w, r.volume = some w ∧ 0 ≤ w) :
    fixRow hv r = r := by
  have hmax : maxO r.high r.open_ r.close = r.high := by
    rw [hoe, hce, hhe]
    simp only [maxO]
    rw [max_eq_left h1, max_eq_left h2]
  have hmin : minO r.low r.open_ r.close = r.low := by
    rw [hoe, hce, hle]
    simp only [minO]
    rw [min_eq_left h3, min_eq_left h4]
  cases hv with
  | false =>
    simp only [fixRow, Bool.false_eq_true, if_false, hmax, hmin]
  | true =>
    obtain ⟨w, hw, hw0⟩ := hvol rfl
    simp only [fixRow, if_true, hmax, hmin, clip0, hw, Option.map_some']
    rw [show w ⊔ 0 = w from max_eq_left hw0, ← hw]

/-- `_fix_data_inconsistencies` only rewrites the row list. -/
theorem fixDataInconsistencies_shape (d : DFrame) :
    ∃ rs, fixDataInconsistencies d = { d with rows := rs } := by
  unfold fixDataInconsistencies
  split
  · exact ⟨_, rfl⟩
  · exact ⟨d.rows, by cases d; rfl⟩

/-- A second run of `clean_data` over rows already satisfying the output
invariant (and already sorted) returns a sublist of them: dedup and the
outlier stage may drop rows, every other stage is the identity. -/
theorem secondPass_of_invariant (now' : ℤ) (ho hh hl hv : Bool) (R : List CRow)
    (hinv : ∀ r ∈ R, (∃ t, r.datetime = some t ∧ t ≤ now') ∧
      (∃ s, r.ticker = some s ∧ upStr s = s) ∧
      (∃ v, r.close = some v ∧ 0 < v) ∧
      (ho = true → ∃ v, r.open_ = some v ∧ 0 < v) ∧
      (hh = true → ∃ v, r.high = some v ∧ 0 < v) ∧
      (hl = true → ∃ v, r.low = some v ∧ 0 < v) ∧
      (hv = true → ∃ v, r.volume = some v ∧ 0 ≤ v) ∧
      ((ho && hh && hl) = true → ∃ o c h l, r.open_ = some o ∧ r.close = some c ∧
        r.high = some h ∧ r.low = some l ∧ o ≤ h ∧ c ≤ h ∧ l ≤ o ∧ l ≤ c))
    (hsort : R.Pairwise (fun a b => sortKeyC a ≤ sortKeyC b)) :
    ∃ out2, cleanData now' ⟨true, true, ho, true, hh, hl, hv, R⟩ = .ok out2 ∧
      out2.rows.Sublist R := by
  simp only [cleanData, removeDuplicates, handleMissingValues, Bool.and_self,
    if_true, bind, Except.bind, pure, Except.pure]
  have hDsub : (dedupLast keyDT R).Sublist R := dedupLast_sublist keyDT R
  have hDinv := fun (r : CRow) (hr : r ∈ dedupLast keyDT R) => hinv r (hDsub.subset hr)
  have hfil : (dedupLast keyDT R).filter
      (fun r => r.datetime.isSome && r.ticker.isSome && r.close.isSome) =
      dedupLast keyDT R := by
    rw [List.filter_eq_self]
    intro r hr
    obtain ⟨⟨t, ht1, -⟩, ⟨s, hs1, -⟩, ⟨c, hc1, -⟩, -⟩ := hDinv r hr
    simp [ht1, hs1, hc1]
  rw [hfil]
  have hopenfill : (if ho = true then
      fillColumn (fun r => r.open_) (fun r v => { r with open_ := v })
        (dedupLast keyDT R) else dedupLast keyDT R) = dedupLast keyDT R := by
    cases hcase : ho with
    | false => simp
    | true =>
      simp only [if_true]
      refine fillColumn_of_isSome _ _ _ ?_
      intro r hr
      obtain ⟨-, -, -, hop, -⟩ := hDinv r hr
      obtain ⟨v, hveq, -⟩ := hop hcase
      simp [hveq]
  rw [hopenfill]
  have hhighfill : (if hh = true then
      fillColumn (fun r => r.high) (fun r v => { r with high := v })
        (dedupLast keyDT R) else dedupLast keyDT R) = dedupLast keyDT R := by
    cases hcase : hh with
    | false => simp
    | true =>
      simp only [if_true]
      refine fillColumn_of_isSome _ _ _ ?_
      intro r hr
      obtain ⟨-, -, -, -, hop, -⟩ := hDinv r hr
      obtain ⟨v, hveq, -⟩ := hop hcase
      simp [hveq]
  rw [hhighfill]
  have hlowfill : (if hl = true then
      fillColumn (fun r => r.low) (fun r v => { r with low := v })
        (dedupLast keyDT R) else dedupLast keyDT R) = dedupLast keyDT R := by
    cases hcase : hl with
    | false => simp
    | true =>
      simp only [if_true]
      refine fillColumn_of_isSome _ _ _ ?_
      intro r hr
      obtain ⟨-, -, -, -, -, hop, -⟩ := hDinv r hr
      obtain ⟨v, hveq, -⟩ := hop hcase
      simp [hveq]
  rw [hlowfill]
  have hvolfill : (if hv = true then
      fillColumn (fun r => r.volume) (fun r v => { r with volume := v })
        (dedupLast keyDT R) else dedupLast keyDT R) = dedupLast keyDT R := by
    cases hcase : hv with
    | false => simp
    | true =>
      simp only [if_true]
      refine fillColumn_of_isSome _ _ _ ?_
      intro r hr
      obtain ⟨-, -, -, -, -, -, hop, -⟩ := hDinv r hr
      obtain ⟨v, hveq, -⟩ := hop hcase
      simp [hveq]
  rw [hvolfill]
  have htypes : validateDataTypes ⟨true, true, ho, true, hh, hl, hv,
      dedupLast keyDT R⟩ = ⟨true, true, ho, true, hh, hl, hv,
      dedupLast keyDT R⟩ := by
    simp only [validateDataTypes, if_true]
    have hco : ∀ r ∈ dedupLast keyDT R, coerceRow r = r := by
      intro r hr
      obtain ⟨-, ⟨s, hs, hup⟩, -⟩ := hDinv r hr
      exact coerceRow_fixed r s hs hup
    rw [List.map_congr_left hco]
    simp
  rw [htypes]
  have hfix : fixDataInconsistencies ⟨true, true, ho, true, hh, hl, hv,
      dedupLast keyDT R⟩ = ⟨true, true, ho, true, hh, hl, hv,
      dedupLast keyDT R⟩ := by
    simp only [fixDataInconsistencies]
    split
    · rename_i hcond
      have hcond' : (ho && hh && hl) = true := by
        revert hcond
        cases ho <;> cases hh <;> cases hl <;> simp
      have hfx : ∀ r ∈ dedupLast keyDT R, fixRow hv r = r := by
        intro r hr
        obtain ⟨-, -, -, -, -, -, hvol, hohlc⟩ := hDinv r hr
        obtain ⟨o, c, h, l, hoeq, hceq, hheq, hleq, p1, p2, p3, p4⟩ :=
          hohlc hcond'
        exact fixRow_fixed hv r o c h l hoeq hceq hheq hleq p1 p2 p3 p4 hvol
      congr 1
      rw [List.map_congr_left hfx]
      simp
    · rfl
  rw [hfix]
  have hYsub : (validateBusinessRules now' (removeOutliersIqr
      ⟨true, true, ho, true, hh, hl, hv, dedupLast keyDT R⟩)).rows.Sublist
      (dedupLast keyDT R) :=
    (validateBusinessRules_sublist now' _).trans (removeOutliersIqr_sublist _)
  have hYsort : (validateBusinessRules now' (removeOutliersIqr
      ⟨true, true, ho, true, hh, hl, hv, dedupLast keyDT R⟩)).rows.Pairwise
      (fun a b => sortKeyC a ≤ sortKeyC b) :=
    List.Pairwise.sublist (hYsub.trans hDsub) hsort
  have hsid : sortLt rowLt (validateBusinessRules now' (removeOutliersIqr
      ⟨true, true, ho, true, hh, hl, hv, dedupLast keyDT R⟩)).rows =
      (validateBusinessRules now' (removeOutliersIqr
        ⟨true, true, ho, true, hh, hl, hv, dedupLast keyDT R⟩)).rows :=
    sortLt_keyLt_of_sorted sortKeyC _ hYsort
  refine ⟨_, rfl, ?_⟩
  rw [hsid]
  exact hYsub.trans hDsub

/-- C2 (amended): `clean_data` is not idempotent (see the counterexample),
but a second pass never adds rows or alters any cell: re-cleaning a
cleaned frame (at any processing instant not before the first) succeeds
and returns a sublist of the first pass's rows — dedup can drop rows whose
keys were first unified by ticker normalization, and the recomputed IQR
bounds can drop further rows; every other stage is the identity. -/
theorem cleanData_reclean_sublist (now now' : ℤ) (df out : DFrame)
    (hok : cleanData now df = .ok out) (hnow : now ≤ now') :
    ∃ out2, cleanData now' out = .ok out2 ∧ out2.rows.Sublist out.rows := by
  obtain ⟨hd, ht, ho, hc, hh, hl, hv, rows⟩ := df
  cases hd <;> cases ht <;> cases hc <;>
    simp only [cleanData, removeDuplicates, handleMissingValues, Bool.and_self,
      Bool.true_and, Bool.and_true, Bool.false_and, Bool.and_false, if_true,
      if_false, bind, Except.bind, pure, Except.pure, reduceCtorEq] at hok
  case true.true.true =>
    rw [Except.ok.injEq] at hok
    subst hok
    obtain ⟨rs4, hrs4⟩ := fixDataInconsistencies_shape
      (validateDataTypes ⟨true, true, ho, true, hh, hl, hv, _⟩)
    rw [hrs4]
    refine secondPass_of_invariant now' ho hh hl hv _ ?_ ?_
    · intro r hr
      rw [← hrs4] at hr
      obtain ⟨⟨t, ht1, ht2⟩, rest⟩ := cleanTail_invariant now ho hh hl hv _ r hr
      exact ⟨⟨t, ht1, le_trans ht2 hnow⟩, rest⟩
    · exact sortLt_keyLt_pairwise sortKeyC _

/-- Concrete evaluation: re-cleaning the output of `dfCaseDup` drops one
of the two rows whose keys were unified by ticker upper-casing. -/
theorem cleanData_dfCaseOut_eval :
    cleanData 5 dfCaseOut =
      .ok ⟨true, true, true, true, true, true, true, [rowCase]⟩ := by
  norm_num [cleanData, dfCaseOut, rowCase, removeDuplicates,
    handleMissingValues, validateDataTypes, fixDataInconsistencies,
    removeOutliersIqr, validateBusinessRules, dedupLast, keyDT, fillColumn,
    ffillCol, bfillCol, coerceRow, fixRow, maxO, minO, clip0, outlierFilterCol,
    quantileQ, sortLt, insertLt, upStr_A, lt_self_iff_false, rowLt,
    keyLt, bind, Except.bind, pure, Except.pure, List.filter, List.filterMap]

/-- C2 (counterexample): cleaning is not idempotent.  For `dfCaseDup`
(tickers `"a"` and `"A"` on one datetime) the first pass returns two rows;
running `clean_data` again on its own output removes one of them, because
`drop_duplicates` now sees the keys that upper-casing unified. -/
theorem cleanData_not_idempotent :
    ∃ out1 out2, cleanData 5 dfCaseDup = .ok out1 ∧
      cleanData 5 out1 = .ok out2 ∧
      out1.rows.length = 2 ∧ out2.rows.length = 1 :=
  ⟨dfCaseOut, ⟨true, true, true, true, true, true, true, [rowCase]⟩,
    cleanData_dfCaseDup_eval, cleanData_dfCaseOut_eval, rfl, rfl⟩

/-- C2 (witness): the second-pass sublist theorem applied to the concrete
cleaned frame `dfCaseOut`. -/
theorem cleanData_reclean_sublist_witness :
    ∃ out2, cleanData 6 dfCaseOut = .ok out2 ∧
      out2.rows.Sublist dfCaseOut.rows :=
  cleanData_reclean_sublist 5 6 dfCaseDup dfCaseOut cleanData_dfCaseDup_eval
    (by norm_num)

/-! ### Per-ticker structure of `calculate_all_indicators` -/

theorem inits1_ne_nil {α : Type} (p : List α) (ys : List α)
    (h : p ∈ inits1 ys) : p ≠ [] := by
  induction ys generalizing p with
  | nil => simp [inits1] at h
  | cons y ys ih =>
    simp only [inits1, List.mem_cons, List.mem_map] at h
    rcases h with rfl | ⟨q, hq, rfl⟩ <;> simp

theorem getLastD_mem_of_inits1 {α : Type} (p : List α) (ys : List α)
    (h : p ∈ inits1 ys) (d : α) : p.getLastD d ∈ ys := by
  induction ys generalizing p with
  | nil => simp [inits1] at h
  | cons y ys ih =>
    simp only [inits1, List.mem_cons, List.mem_map] at h
    rcases h with rfl | ⟨q, hq, rfl⟩
    · simp
    · have hq0 : q ≠ [] := inits1_ne_nil q ys hq
      have : (y :: q).getLastD d = q.getLastD d := by
        cases q with
        | nil => exact absurd rfl hq0
        | cons a as => rfl
      rw [this]
      exact List.mem_cons_of_mem y (ih q hq)

/-- Every row of a per-ticker block carries the block's ticker. -/
theorem perTicker_ticker (t : String) (ys : List IRow)
    (hys : ∀ r ∈ ys, r.ticker = t) : ∀ e ∈ perTicker ys, e.ticker = t := by
  intro e he
  obtain ⟨p, hp, rfl⟩ := List.mem_map.1 he
  exact hys _ (getLastD_mem_of_inits1 p ys hp _)

theorem mem_uniqueTickers (rows : List IRow) (t : String) :
    t ∈ uniqueTickers rows ↔ ∃ r ∈ rows, r.ticker = t := by
  induction rows with
  | nil => simp [uniqueTickers]
  | cons r rs ih =>
    simp only [uniqueTickers, List.mem_cons, List.mem_filter, ih]
    constructor
    · rintro (rfl | ⟨⟨s, hs, hst⟩, -⟩)
      · exact ⟨r, by simp⟩
      · exact ⟨s, by simp [hs], hst⟩
    · rintro ⟨s, hs, hst⟩
      rcases hs with rfl | hs'
      · exact Or.inl hst.symm
      · by_cases ht : t = r.ticker
        · exact Or.inl ht
        · exact Or.inr ⟨⟨s, hs', hst⟩, by simpa using ht⟩

theorem uniqueTickers_nodup (rows : List IRow) : (uniqueTickers rows).Nodup := by
  induction rows with
  | nil => simp [uniqueTickers]
  | cons r rs ih =>
    simp only [uniqueTickers]
    refine List.nodup_cons.2 ⟨?_, List.Nodup.filter _ ih⟩
    intro hmem
    exact absurd ((List.mem_filter.1 hmem).2) (by simp)

theorem filter_flatMap {α β : Type} (l : List α) (f : α → List β) (p : β → Bool) :
    (l.flatMap f).filter p = l.flatMap (fun a => (f a).filter p) := by
  induction l with
  | nil => rfl
  | cons x xs ih => simp [List.flatMap_cons, List.filter_append, ih]

theorem flatMap_single {α β : Type} [DecidableEq α] (l : List α) (f : α → List β)
    (u : α) (hnd : l.Nodup) (hz : ∀ t ∈ l, t ≠ u → f t = []) :
    l.flatMap f = if u ∈ l then f u else [] := by
  induction l with
  | nil => simp
  | cons t ts ih =>
    simp only [List.flatMap_cons]
    by_cases htu : t = u
    · subst htu
      have hnotin : t ∉ ts := (List.nodup_cons.1 hnd).1
      have hnil : ts.flatMap f = [] := by
        refine List.flatMap_eq_nil_iff.2 ?_
        intro s hs
        exact hz s (by simp [hs]) (fun he => hnotin (he ▸ hs))
      simp [hnil]
    · rw [hz t (by simp) htu, List.nil_append,
        ih (List.nodup_cons.1 hnd).2
          (fun s hs hsu => hz s (by simp [hs]) hsu)]
      by_cases hu : u ∈ ts
      · rw [if_pos hu, if_pos (List.mem_cons_of_mem t hu)]
      · rw [if_neg hu, if_neg (fun h => by
          rcases List.mem_cons.1 h with h1 | h2
          · exact htu h1.symm
          · exact hu h2)]

/-- The rows of `calculate_all_indicators` with a given ticker are exactly
that ticker's enriched block after the final `dropna` filter. -/
theorem calcAll_ticker_block (rows : List IRow) (u : String) :
    (calcAll rows).filter (fun e => decide (e.ticker = u)) =
      (perTicker (sortLt dateLt (rows.filter
        (fun r => decide (r.ticker = u))))).filter (fun e => !(allNaN e)) := by
  unfold calcAll
  rw [List.filter_filter, filter_flatMap]
  have hz : ∀ t ∈ uniqueTickers rows, t ≠ u →
      ((perTicker (sortLt dateLt (rows.filter
        (fun r => decide (r.ticker = t))))).filter
          (fun e => decide (e.ticker = u) && !(allNaN e))) = [] := by
    intro t _ htu
    refine List.filter_eq_nil_iff.2 ?_
    intro e he
    have het : e.ticker = t := by
      refine perTicker_ticker t _ ?_ e he
      intro r hr
      have := (List.mem_filter.1 ((mem_sortLt dateLt _ r).1 hr)).2
      simpa using this
    simp [het, htu]
  rw [flatMap_single _ _ u (uniqueTickers_nodup rows) hz]
  by_cases hu : u ∈ uniqueTickers rows
  · rw [if_pos hu]
    refine List.filter_congr ?_
    intro e he
    have het : e.ticker = u := by
      refine perTicker_ticker u _ ?_ e he
      intro r hr
      have := (List.mem_filter.1 ((mem_sortLt dateLt _ r).1 hr)).2
      simpa using this
    simp [het]
  · rw [if_neg hu]
    have hempty : rows.filter (fun r => decide (r.ticker = u)) = [] := by
      refine List.filter_eq_nil_iff.2 ?_
      intro r hr
      simp only [decide_eq_true_eq]
      intro hru
      exact hu ((mem_uniqueTickers rows u).2 ⟨r, hr, hru⟩)
    rw [hempty]
    rfl

/-- C9: per-ticker isolation.  If two inputs contain identical rows for
every ticker other than `B` — one of them additionally carrying rows for
ticker `B` — then the enriched output rows for any ticker `A ≠ B` are
identical in the two outputs: no computation crosses tickers. -/
theorem calcAll_ticker_isolation (rows1 rows2 : List IRow) (A B : String)
    (hAB : A ≠ B) (hfilter : rows2.filter (fun r => decide (r.ticker ≠ B)) = rows1) :
    (calcAll rows2).filter (fun e => decide (e.ticker = A)) =
      (calcAll rows1).filter (fun e => decide (e.ticker = A)) := by
  rw [calcAll_ticker_block, calcAll_ticker_block]
  have hrows : rows2.filter (fun r => decide (r.ticker = A)) =
      rows1.filter (fun r => decide (r.ticker = A)) := by
    rw [← hfilter, List.filter_filter]
    refine (List.filter_congr ?_).symm
    intro r _
    by_cases hr : r.ticker = A
    · simp [hr, hAB]
    · simp [hr]
  rw [hrows]

/-! ### Row preservation in `calculate_all_indicators` -/

theorem mem_of_mem_inits1 {α : Type} (p : List α) (ys : List α)
    (h : p ∈ inits1 ys) : ∀ x ∈ p, x ∈ ys := by
  induction ys generalizing p with
  | nil => simp [inits1] at h
  | cons y ys ih =>
    simp only [inits1, List.mem_cons, List.mem_map] at h
    rcases h with rfl | ⟨q, hq, rfl⟩
    · intro x hx
      have hxy := List.mem_singleton.1 hx
      simp [hxy]
    · intro x hx
      rcases List.mem_cons.1 hx with rfl | hx'
      · simp
      · exact List.mem_cons_of_mem _ (ih q hq x hx')

/-- The `ewm` accumulator fold keeps a finite numerator and a nonnegative
weight sum that reaches at least 1 once an observation has been seen,
provided every observation is finite and the decay factor lies in `[0,1]`. -/
theorem ewm_fold (a : ℚ) (ha : 0 ≤ 1 - a) :
    ∀ (xs : List EFloat), (∀ x ∈ xs, ∃ q, x = fin q) →
    ∀ (c d : ℚ), 0 ≤ d →
    ∃ c' d', (xs.foldl (fun (acc : EFloat × ℚ) x =>
        if x.isNaN then (mul acc.1 (fin (1 - a)), acc.2 * (1 - a))
        else (add (mul acc.1 (fin (1 - a))) x, acc.2 * (1 - a) + 1)) (fin c, d))
          = (fin c', d')
      ∧ 0 ≤ d' ∧ (1 ≤ d → 1 ≤ d') ∧ (xs ≠ [] → 1 ≤ d') := by
  intro xs
  induction xs with
  | nil =>
    intro _ c d hd
    exact ⟨c, d, rfl, hd, fun h => h, fun h => absurd rfl h⟩
  | cons x xs ih =>
    intro hxs c d hd
    obtain ⟨q, rfl⟩ := hxs x (by simp)
    have hstep : (List.foldl (fun (acc : EFloat × ℚ) x =>
        if x.isNaN then (mul acc.1 (fin (1 - a)), acc.2 * (1 - a))
        else (add (mul acc.1 (fin (1 - a))) x, acc.2 * (1 - a) + 1))
          (fin c, d) (fin q :: xs))
        = List.foldl (fun (acc : EFloat × ℚ) x =>
        if x.isNaN then (mul acc.1 (fin (1 - a)), acc.2 * (1 - a))
        else (add (mul acc.1 (fin (1 - a))) x, acc.2 * (1 - a) + 1))
          (fin (c * (1 - a) + q), d * (1 - a) + 1) xs := by
      simp [isNaN, mul, add]
    have hd1 : (0:ℚ) ≤ d * (1 - a) + 1 := by
      have := mul_nonneg hd ha
      linarith
    obtain ⟨c', d', hfold, hd0', hge', _⟩ :=
      ih (fun y hy => hxs y (by simp [hy])) (c * (1 - a) + q) (d * (1 - a) + 1) hd1
    refine ⟨c', d', hstep.trans hfold, hd0', fun _ => ?_, fun _ => ?_⟩ <;>
      · apply hge'
        have := mul_nonneg hd ha
        linarith

/-- `ewm(span).mean()` over a non-empty all-finite series is finite. -/
theorem ewmLast_fin (span : ℕ) (hsp : 1 ≤ span) (xs : List EFloat)
    (hne : xs ≠ []) (hxs : ∀ x ∈ xs, ∃ q, x = fin q) :
    ∃ q, ewmLast span xs = fin q := by
  have hpos : (0:ℚ) < (span : ℚ) + 1 := by positivity
  have ha : 0 ≤ 1 - 2 / ((span : ℚ) + 1) := by
    have h1 : (1:ℚ) ≤ (span : ℚ) := by exact_mod_cast hsp
    have h2 : (2:ℚ) ≤ (span : ℚ) + 1 := by linarith
    have := div_le_one_of_le₀ h2 (le_of_lt hpos)
    linarith
  obtain ⟨c', d', hfold, _, _, hdne⟩ :=
    ewm_fold (2 / ((span : ℚ) + 1)) ha xs hxs 0 0 le_rfl
  have hd1 : 1 ≤ d' := hdne hne
  have hne' : d' ≠ 0 := ne_of_gt (lt_of_lt_of_le one_pos hd1)
  refine ⟨c' / d', ?_⟩
  simp only [ewmLast]
  rw [hfold]
  simp [EFloat.div, hne']

theorem mkAt_ema5 (ys p : List IRow) : (mkAt ys p).ema_5 = emaAt 5 p := rfl

theorem mkAt_tr (ys p : List IRow) : (mkAt ys p).tr = trAt p := rfl

theorem mkAt_total (ys p : List IRow) :
    (mkAt ys p).total_return = totalReturnOf ys := rfl

theorem flatMap_length {α β : Type} (l : List α) (f : α → List β) :
    (l.flatMap f).length = (l.map (fun a => (f a).length)).sum := by
  induction l with
  | nil => rfl
  | cons x xs ih => simp [List.flatMap_cons, ih]

theorem sum_ite_key {α : Type} [DecidableEq α] (a : α) :
    ∀ (L : List α), L.Nodup → a ∈ L →
      (L.map (fun t => if a = t then 1 else 0)).sum = 1 := by
  intro L
  induction L with
  | nil =>
    intro _ h
    simp at h
  | cons t ts ih =>
    intro hnd hmem
    by_cases hat : a = t
    · subst hat
      have hnotin : a ∉ ts := (List.nodup_cons.1 hnd).1
      have hz : (ts.map (fun t => if a = t then 1 else 0)).sum = 0 := by
        apply List.sum_eq_zero
        intro x hx
        obtain ⟨s, hs, rfl⟩ := List.mem_map.1 hx
        rw [if_neg (by rintro rfl; exact hnotin hs)]
      simp [hz]
    · have hmem' : a ∈ ts := by
        rcases List.mem_cons.1 hmem with rfl | h
        · exact absurd rfl hat
        · exact h
      simp [hat, ih (List.nodup_cons.1 hnd).2 hmem']

/-- The per-ticker filters partition the rows: their lengths sum back to
the input length. -/
theorem sum_filter_lengths (L : List String) (hnd : L.Nodup) :
    ∀ (rs : List IRow), (∀ r ∈ rs, r.ticker ∈ L) →
      (L.map (fun t => (rs.filter (fun r => decide (r.ticker = t))).length)).sum
        = rs.length := by
  intro rs
  induction rs with
  | nil =>
    intro _
    simp
  | cons r rs ih =>
    intro hmem
    have hstep : ∀ t : String,
        ((r :: rs).filter (fun s => decide (s.ticker = t))).length
          = (if r.ticker = t then 1 else 0)
            + (rs.filter (fun s => decide (s.ticker = t))).length := by
      intro t
      by_cases h : r.ticker = t
      · simp [List.filter_cons, h, Nat.add_comm]
      · simp [List.filter_cons, h]
    rw [List.map_congr_left (fun t _ => hstep t), List.sum_map_add,
      sum_ite_key r.ticker L hnd (hmem r (by simp)),
      ih (fun s hs => hmem s (by simp [hs]))]
    simp [Nat.add_comm]

theorem perTicker_length (ys : List IRow) : (perTicker ys).length = ys.length := by
  simp [perTicker, inits1_length]

/-- C10 (counterexample): on a one-row input whose close is the non-null
value `0.0`, the output still contains the row (its `tr` indicator is
non-null) but `total_return = close/close - 1 = 0/0 - 1` is NaN — refuting
the claim that `total_return` is assigned a non-null value for every row
of every ticker. -/
theorem calcAll_totalReturn_nan :
    rowC10.close.isNaN = false ∧
      mkAt [rowC10] [rowC10] ∈ calcAll [rowC10] ∧
      (mkAt [rowC10] [rowC10]).total_return = nan := by
  have h1 : calcAll [rowC10] = (perTicker [rowC10]).filter (fun e => !(allNaN e)) := by
    simp [calcAll, uniqueTickers, rowC10, sortLt, insertLt]
  have h2 : perTicker [rowC10] = [mkAt [rowC10] [rowC10]] := by
    simp [perTicker, inits1]
  have htr : (mkAt [rowC10] [rowC10]).tr = fin 0 := by
    rw [mkAt_tr]
    norm_num [trAt, rowC10, EFloat.sub, EFloat.add, EFloat.neg]
  have h3 : allNaN (mkAt [rowC10] [rowC10]) = false := by
    simp [allNaN, htr, isNaN]
  refine ⟨rfl, ?_, ?_⟩
  · rw [h1, h2]
    simp [h3]
  · rw [mkAt_total]
    norm_num [totalReturnOf, rowC10, EFloat.div, EFloat.sub, EFloat.add, EFloat.neg]

/-- C10 (amended): when every input close is finite, the final
`dropna(subset=indicator_columns, how='all')` never removes a row — the
output has exactly one row per input row — because already `ema_5`
(an `ewm` mean, defined from the very first bar) is non-null on every row.
The claim's stated reason fails: `total_return` can be NaN (see the
counterexample), so row preservation rests on the `ewm` columns instead. -/
theorem calcAll_length (rows : List IRow)
    (hfin : ∀ r ∈ rows, ∃ q, r.close = fin q) :
    (calcAll rows).length = rows.length := by
  unfold calcAll
  have hkeep : ∀ e ∈ (uniqueTickers rows).flatMap (fun t =>
      perTicker (sortLt dateLt (rows.filter (fun r => decide (r.ticker = t))))),
      (!(allNaN e)) = true := by
    intro e he
    obtain ⟨t, _, he2⟩ := List.mem_flatMap.1 he
    obtain ⟨p, hp, rfl⟩ := List.mem_map.1 he2
    have hpne : p ≠ [] := inits1_ne_nil p _ hp
    have hpc : ∀ x ∈ p.map (fun r => r.close), ∃ q, x = fin q := by
      intro x hx
      obtain ⟨r, hr, rfl⟩ := List.mem_map.1 hx
      have hr2 : r ∈ sortLt dateLt (rows.filter (fun r => decide (r.ticker = t))) :=
        mem_of_mem_inits1 p _ hp r hr
      exact hfin r (List.mem_of_mem_filter ((mem_sortLt dateLt _ r).1 hr2))
    have hmne : p.map (fun r => r.close) ≠ [] := by
      cases p with
      | nil => exact absurd rfl hpne
      | cons a as => simp
    obtain ⟨q, hq⟩ := ewmLast_fin 5 (by norm_num) _ hmne hpc
    have hq' : (mkAt (sortLt dateLt (rows.filter (fun r => decide (r.ticker = t)))) p).ema_5
        = fin q := hq
    simp [allNaN, hq', isNaN]
  rw [List.filter_eq_self.2 hkeep, flatMap_length]
  rw [List.map_congr_left (fun t _ => by
    rw [perTicker_length, sortLt_length])]
  exact sum_filter_lengths (uniqueTickers rows) (uniqueTickers_nodup rows) rows
    (fun r hr => (mem_uniqueTickers rows r.ticker).2 ⟨r, hr, rfl⟩)

/-- C10 (witness): the amended row-count theorem applied to the concrete
one-row input `rowC10`, whose close is the finite value 0. -/
theorem calcAll_length_witness :
    (∀ r ∈ [rowC10], ∃ q, r.close = fin q) ∧
      (calcAll [rowC10]).length = [rowC10].length :=
  ⟨by intro r hr; rw [List.mem_singleton.1 hr]; exact ⟨0, rfl⟩,
   calcAll_length [rowC10]
     (by intro r hr; rw [List.mem_singleton.1 hr]; exact ⟨0, rfl⟩)⟩

/-! ### The RSI sentinel on monotone close series -/

theorem self_mem_inits1 {α : Type} (ys : List α) (h : ys ≠ []) : ys ∈ inits1 ys := by
  induction ys with
  | nil => exact absurd rfl h
  | cons y ys ih =>
    cases ys with
    | nil => simp [inits1]
    | cons b bs =>
      have hmem : (b :: bs) ∈ inits1 (b :: bs) := ih (by simp)
      show (y :: b :: bs) ∈ [y] :: (inits1 (b :: bs)).map (fun p => y :: p)
      exact List.mem_cons_of_mem _ (List.mem_map.2 ⟨b :: bs, hmem, rfl⟩)

theorem inits1_isPrefix {α : Type} (p ys : List α) (h : p ∈ inits1 ys) :
    List.IsPrefix p ys := by
  induction ys generalizing p with
  | nil => simp [inits1] at h
  | cons y ys ih =>
    simp only [inits1, List.mem_cons, List.mem_map] at h
    rcases h with rfl | ⟨q, hq, rfl⟩
    · exact ⟨ys, rfl⟩
    · obtain ⟨u, hu⟩ := ih q hq
      exact ⟨u, by rw [List.cons_append, hu]⟩

theorem foldl_add_fin : ∀ (qs : List ℚ) (c : ℚ),
    (qs.map fin).foldl add (fin c) = fin (c + qs.sum) := by
  intro qs
  induction qs with
  | nil =>
    intro c
    simp
  | cons q qs ih =>
    intro c
    simp only [List.map_cons, List.foldl_cons, List.sum_cons]
    rw [show add (fin c) (fin q) = fin (c + q) from rfl, ih, add_assoc]

theorem sumE_map_fin (qs : List ℚ) : sumE (qs.map fin) = fin qs.sum := by
  have h := foldl_add_fin qs 0
  simpa [sumE] using h

/-- `rolling(n).mean()` of an all-finite series of length `≥ n`, at the
last position: the plain average of the last `n` values. -/
theorem rollLast_meanE_fin (n : ℕ) (hn : n ≠ 0) (ws : List ℚ) (hlen : n ≤ ws.length) :
    rollLast n meanE (ws.map fin) = fin ((ws.drop (ws.length - n)).sum / ((n : ℕ) : ℚ)) := by
  have hno : ((ws.drop (ws.length - n)).map fin).any isNaN = false := by
    rw [List.any_eq_false]
    intro x hx
    obtain ⟨w, _, rfl⟩ := List.mem_map.1 hx
    simp [isNaN]
  have hdl : (ws.drop (ws.length - n)).length = n := by
    rw [List.length_drop]
    omega
  simp only [rollLast, List.length_map]
  rw [if_neg (by omega), ← List.map_drop, hno]
  simp only [Bool.false_eq_true, if_false]
  simp only [meanE, List.length_map, hdl, sumE_map_fin]
  have hq : ((n : ℕ) : ℚ) ≠ 0 := Nat.cast_ne_zero.2 hn
  simp [EFloat.div, hq]

theorem diffL_cons (x : EFloat) (xs : List EFloat) :
    diffL (x :: xs) = nan :: diffL.go x xs := by
  simp [diffL]

/-- The tail of `Series.diff()` on a finite strictly increasing series is
a finite, everywhere-positive series. -/
theorem diffL_go_fin : ∀ (ds : List ℚ) (a : ℚ),
    ∃ es : List ℚ, diffL.go (fin a) (ds.map fin) = es.map fin
      ∧ es.length = ds.length
      ∧ (List.Chain' (· < ·) (a :: ds) → ∀ e ∈ es, 0 < e) := by
  intro ds
  induction ds with
  | nil =>
    intro a
    exact ⟨[], rfl, rfl, by intro _ e he; simp at he⟩
  | cons b bs ih =>
    intro a
    obtain ⟨es, heq, hlen, hpos⟩ := ih b
    have hsub : sub (fin b) (fin a) = fin (b - a) := by
      simp [EFloat.sub, EFloat.add, EFloat.neg, sub_eq_add_neg]
    refine ⟨(b - a) :: es, ?_, by simp [hlen], ?_⟩
    · simp only [List.map_cons]
      rw [show diffL.go (fin a) (fin b :: bs.map fin)
            = sub (fin b) (fin a) :: diffL.go (fin b) (bs.map fin) from rfl,
          heq, hsub]
    · intro hch e he
      have hab := (List.chain'_cons.1 hch).1
      have hrest := (List.chain'_cons.1 hch).2
      rcases List.mem_cons.1 he with rfl | he'
      · linarith
      · exact hpos hrest e he'

theorem posPart_nan : posPart nan = fin 0 := rfl

theorem negPart_nan : negPart nan = fin 0 := by
  simp [negPart, ltE, EFloat.neg]

theorem posPart_fin_pos (e : ℚ) (he : 0 < e) : posPart (fin e) = fin e := by
  simp [posPart, ltE, he]

theorem negPart_fin_pos (e : ℚ) (he : 0 < e) : negPart (fin e) = fin 0 := by
  have hlt : ltE (fin e) (fin 0) = false := by
    simp [ltE]
    linarith
  simp [negPart, hlt, EFloat.neg]

theorem mkAt_rsi14 (ys p : List IRow) : (mkAt ys p).rsi_14 = rsiAt 14 p := rfl

/-- On a block prefix whose closes are finite and strictly increasing and
which contains at least 15 bars, the 14-bar loss window is identically
zero while the gain window has positive mean, so `rs = +inf` and
`100 - 100/(1 + rs)` collapses to exactly `100`. -/
theorem rsiAt_sentinel (p : List IRow) (ds : List ℚ)
    (hmap : p.map (fun r => r.close) = ds.map fin)
    (hch : List.Chain' (· < ·) ds) (hlen : 15 ≤ p.length) :
    rsiAt 14 p = fin 100 := by
  cases ds with
  | nil =>
    simp only [List.map_nil, List.map_eq_nil_iff] at hmap
    rw [hmap] at hlen
    simp at hlen
  | cons d0 rest =>
    have hlen2 : p.length = rest.length + 1 := by
      have h := congrArg List.length hmap
      simpa using h
    obtain ⟨es, hgo, heslen, hpos0⟩ := diffL_go_fin rest d0
    have hpose : ∀ e ∈ es, 0 < e := hpos0 hch
    have hdeltas : diffL (p.map (fun r => r.close)) = nan :: es.map fin := by
      rw [hmap, List.map_cons, diffL_cons, hgo]
    have hgains : (diffL (p.map (fun r => r.close))).map posPart
        = ((0:ℚ) :: es).map fin := by
      rw [hdeltas]
      simp only [List.map_cons, List.map_map, posPart_nan]
      congr 1
      exact List.map_congr_left (fun e he => posPart_fin_pos e (hpose e he))
    have hlosses : (diffL (p.map (fun r => r.close))).map negPart
        = ((0:ℚ) :: es.map (fun _ => (0:ℚ))).map fin := by
      rw [hdeltas]
      simp only [List.map_cons, List.map_map, negPart_nan]
      congr 1
      exact List.map_congr_left (fun e he => negPart_fin_pos e (hpose e he))
    have heslen14 : 14 ≤ es.length := by omega
    have hdropW : ((0:ℚ) :: es).drop (((0:ℚ) :: es).length - 14)
        = es.drop (es.length - 14) := by
      have h1 : ((0:ℚ) :: es).length - 14 = (es.length - 14) + 1 := by
        simp only [List.length_cons]
        omega
      rw [h1, List.drop_succ_cons]
    have hWpos : 0 < (es.drop (es.length - 14)).sum := by
      apply List.sum_pos
      · intro x hx
        exact hpose x (List.drop_subset _ _ hx)
      · have hl : (es.drop (es.length - 14)).length = 14 := by
          rw [List.length_drop]
          omega
        intro hnil
        rw [hnil] at hl
        simp at hl
    have hgain : rollLast 14 meanE (((0:ℚ) :: es).map fin)
        = fin ((es.drop (es.length - 14)).sum / ((14 : ℕ) : ℚ)) := by
      rw [rollLast_meanE_fin 14 (by norm_num) _
        (by simp only [List.length_cons]; omega), hdropW]
    have hZzero : ∀ z ∈ ((0:ℚ) :: es.map (fun _ => (0:ℚ))).drop
        ((((0:ℚ) :: es.map (fun _ => (0:ℚ))).length) - 14), z = 0 := by
      intro z hz
      have hz' := List.drop_subset _ _ hz
      rcases List.mem_cons.1 hz' with rfl | hz2
      · rfl
      · obtain ⟨e, _, rfl⟩ := List.mem_map.1 hz2
        rfl
    have hloss : rollLast 14 meanE (((0:ℚ) :: es.map (fun _ => (0:ℚ))).map fin)
        = fin 0 := by
      rw [rollLast_meanE_fin 14 (by norm_num) _
        (by simp only [List.length_cons, List.length_map]; omega),
        List.sum_eq_zero hZzero]
      norm_num
    show sub (fin 100) (div (fin 100) (add (fin 1)
      (div (rollLast 14 meanE ((diffL (p.map (fun r => r.close))).map posPart))
           (rollLast 14 meanE ((diffL (p.map (fun r => r.close))).map negPart))))) = fin 100
    rw [hgains, hlosses, hgain, hloss]
    have hG : 0 < (es.drop (es.length - 14)).sum / ((14 : ℕ) : ℚ) :=
      div_pos hWpos (by norm_num)
    simp [EFloat.div, EFloat.add, EFloat.sub, EFloat.neg, hG, hG.ne', hWpos, hWpos.ne']

/-- C3: for any ticker `t` of the input whose date-sorted block has
finite, strictly increasing closes and at least 15 bars, every enriched
row from the 15th bar onward appears in the output of
`calculate_all_indicators` and carries `rsi_14 = 100` — the documented
overbought sentinel, not NaN and not infinity. -/
theorem calcAll_rsi_sentinel (rows : List IRow) (t : String) (ys : List IRow)
    (hys : ys = sortLt dateLt (rows.filter (fun r => decide (r.ticker = t))))
    (ds : List ℚ)
    (hmap : ys.map (fun r => r.close) = ds.map fin)
    (hch : List.Chain' (· < ·) ds)
    (p : List IRow) (hp : p ∈ inits1 ys) (hlen : 15 ≤ p.length) :
    mkAt ys p ∈ calcAll rows ∧ (mkAt ys p).rsi_14 = fin 100 := by
  have hpre := inits1_isPrefix p ys hp
  have hptake : p = ys.take p.length := List.prefix_iff_eq_take.1 hpre
  have hmapp : p.map (fun r => r.close) = (ds.take p.length).map fin := by
    rw [List.map_take, ← hmap, ← List.map_take, ← hptake]
  have hcht : List.Chain' (· < ·) (ds.take p.length) :=
    hch.sublist (List.take_sublist _ _)
  have hrsi : (mkAt ys p).rsi_14 = fin 100 := by
    rw [mkAt_rsi14]
    exact rsiAt_sentinel p _ hmapp hcht hlen
  have hpne : p ≠ [] := inits1_ne_nil p ys hp
  obtain ⟨r0, hr0⟩ : ∃ r, r ∈ ys := by
    cases p with
    | nil => exact absurd rfl hpne
    | cons a as => exact ⟨a, mem_of_mem_inits1 _ _ hp a (by simp)⟩
  have hr0f : r0 ∈ rows.filter (fun r => decide (r.ticker = t)) := by
    rw [hys] at hr0
    exact (mem_sortLt dateLt _ r0).1 hr0
  have hr0rows : r0 ∈ rows := List.mem_of_mem_filter hr0f
  have hr0t : r0.ticker = t := by
    have h := List.of_mem_filter hr0f
    simpa using h
  have ht : t ∈ uniqueTickers rows := (mem_uniqueTickers rows t).2 ⟨r0, hr0rows, hr0t⟩
  refine ⟨?_, hrsi⟩
  unfold calcAll
  apply List.mem_filter.2
  refine ⟨?_, by simp [allNaN, hrsi, isNaN]⟩
  apply List.mem_flatMap.2
  refine ⟨t, ht, ?_⟩
  rw [← hys]
  exact List.mem_map.2 ⟨p, hp, rfl⟩

/-- C3 (witness): the sentinel theorem applied to the 15-bar strictly
increasing block `rowsC3`, at its 15th (full) prefix. -/
theorem calcAll_rsi_sentinel_witness :
    (rowsC3 = sortLt dateLt (rowsC3.filter (fun r => decide (r.ticker = "A")))
      ∧ rowsC3.map (fun r => r.close) = dsC3.map fin
      ∧ List.Chain' (· < ·) dsC3
      ∧ rowsC3 ∈ inits1 rowsC3
      ∧ 15 ≤ rowsC3.length)
    ∧ (mkAt rowsC3 rowsC3 ∈ calcAll rowsC3
      ∧ (mkAt rowsC3 rowsC3).rsi_14 = fin 100) := by
  have h1 : rowsC3 = sortLt dateLt (rowsC3.filter (fun r => decide (r.ticker = "A"))) := by
    rfl
  have h2 : rowsC3.map (fun r => r.close) = dsC3.map fin := by
    rfl
  have h3 : List.Chain' (· < ·) dsC3 := by
    norm_num [dsC3, List.chain'_cons]
  have h4 : rowsC3 ∈ inits1 rowsC3 := self_mem_inits1 _ (by simp [rowsC3])
  have h5 : (15 : ℕ) ≤ rowsC3.length := by
    norm_num [rowsC3]
  exact ⟨⟨h1, h2, h3, h4, h5⟩,
    calcAll_rsi_sentinel rowsC3 "A" rowsC3 h1 dsC3 h2 h3 rowsC3 h4 h5⟩

/-! ### The MFI zero-denominator case -/

theorem rollLast_sumE_fin (n : ℕ) (ws : List ℚ) (hlen : n ≤ ws.length) :
    rollLast n sumE (ws.map fin) = fin ((ws.drop (ws.length - n)).sum) := by
  have hno : ((ws.drop (ws.length - n)).map fin).any isNaN = false := by
    rw [List.any_eq_false]
    intro x hx
    obtain ⟨w, _, rfl⟩ := List.mem_map.1 hx
    simp [isNaN]
  simp only [rollLast, List.length_map]
  rw [if_neg (by omega), ← List.map_drop, hno]
  simp only [Bool.false_eq_true, if_false]
  exact sumE_map_fin _

theorem flows_cons (cmp : EFloat → EFloat → Bool) (x : EFloat × EFloat)
    (rest : List (EFloat × EFloat)) :
    flows cmp (x :: rest) = fin 0 :: flows.go cmp x.1 rest := by
  simp [flows]

/-- Over pairs of finite (typical price, money flow) values with strictly
increasing typical price, the negative-flow branch is never taken. -/
theorem flows_go_neg_incr : ∀ (tms : List (ℚ × ℚ)) (a : ℚ),
    List.Chain' (· < ·) (a :: tms.map Prod.fst) →
    flows.go (fun prev cur => ltE cur prev) (fin a) (tms.map (Prod.map fin fin))
      = (tms.map (fun _ => (0:ℚ))).map fin := by
  intro tms
  induction tms with
  | nil =>
    intro a _
    rfl
  | cons tm tms ih =>
    intro a hch
    obtain ⟨t, m⟩ := tm
    simp only [List.map_cons] at hch
    have hat := (List.chain'_cons.1 hch).1
    have hrest := (List.chain'_cons.1 hch).2
    have hlt : ltE (fin t) (fin a) = false := by
      simp [ltE]
      linarith
    simp only [List.map_cons, Prod.map_apply]
    rw [show flows.go (fun prev cur => ltE cur prev) (fin a)
          ((fin t, fin m) :: tms.map (Prod.map fin fin))
        = (if ltE (fin t) (fin a) then fin m else fin 0)
            :: flows.go (fun prev cur => ltE cur prev) (fin t)
                (tms.map (Prod.map fin fin)) from rfl,
      hlt]
    simp only [Bool.false_eq_true, if_false]
    rw [ih t hrest]

/-- With strictly increasing typical price, every positive-flow entry
after the first is the bar's money flow. -/
theorem flows_go_pos_incr : ∀ (tms : List (ℚ × ℚ)) (a : ℚ),
    List.Chain' (· < ·) (a :: tms.map Prod.fst) →
    flows.go (fun prev cur => ltE prev cur) (fin a) (tms.map (Prod.map fin fin))
      = (tms.map Prod.snd).map fin := by
  intro tms
  induction tms with
  | nil =>
    intro a _
    rfl
  | cons tm tms ih =>
    intro a hch
    obtain ⟨t, m⟩ := tm
    simp only [List.map_cons] at hch
    have hat := (List.chain'_cons.1 hch).1
    have hrest := (List.chain'_cons.1 hch).2
    have hlt : ltE (fin a) (fin t) = true := by
      simp [ltE]
      linarith
    simp only [List.map_cons, Prod.map_apply]
    rw [show flows.go (fun prev cur => ltE prev cur) (fin a)
          ((fin t, fin m) :: tms.map (Prod.map fin fin))
        = (if ltE (fin a) (fin t) then fin m else fin 0)
            :: flows.go (fun prev cur => ltE prev cur) (fin t)
                (tms.map (Prod.map fin fin)) from rfl,
      hlt]
    simp only [if_true]
    rw [ih t hrest]

theorem zipWith_mul_fin : ∀ (ts vs : List ℚ),
    List.zipWith mul (ts.map fin) (vs.map fin)
      = (List.zipWith (fun a b => a * b) ts vs).map fin := by
  intro ts
  induction ts with
  | nil =>
    intro vs
    rfl
  | cons t ts ih =>
    intro vs
    cases vs with
    | nil => rfl
    | cons v vs =>
      simp only [List.map_cons, List.zipWith_cons_cons, ih]
      rfl

theorem zipWith_mul_pos : ∀ (ts vs : List ℚ), (∀ x ∈ ts, 0 < x) → (∀ x ∈ vs, 0 < x) →
    ∀ m ∈ List.zipWith (fun a b => a * b) ts vs, 0 < m := by
  intro ts
  induction ts with
  | nil =>
    intro vs _ _ m hm
    simp at hm
  | cons t ts ih =>
    intro vs htp hvp m hm
    cases vs with
    | nil => simp at hm
    | cons v vs =>
      simp only [List.zipWith_cons_cons, List.mem_cons] at hm
      rcases hm with rfl | hm'
      · exact mul_pos (htp t (by simp)) (hvp v (by simp))
      · exact ih vs (fun x hx => htp x (by simp [hx]))
          (fun x hx => hvp x (by simp [hx])) m hm'

theorem mkAt_mfi (ys p : List IRow) : (mkAt ys p).mfi = mfiAt p := rfl

/-- On a prefix with finite strictly increasing typical price and finite
positive volumes (at least 15 bars): the 14-bar negative money-flow sum is
exactly zero, the positive sum is positive, so `mfi = 100 - 100/(1 + pmf/0)
= 100 - 100/(1 + inf) = 100` — the finite overbought sentinel, not null. -/
theorem mfiAt_pos_flow (p : List IRow) (ts vs : List ℚ)
    (hts : p.map (fun r => div (add (add r.high r.low) r.close) (fin 3)) = ts.map fin)
    (hvs : p.map (fun r => r.volume) = vs.map fin)
    (htpos : ∀ x ∈ ts, 0 < x) (hvpos : ∀ x ∈ vs, 0 < x)
    (hch : List.Chain' (· < ·) ts) (hlen : 15 ≤ p.length) :
    rollLast 14 sumE (flows (fun prev cur => ltE cur prev)
        ((p.map (fun r => div (add (add r.high r.low) r.close) (fin 3))).zip
          (List.zipWith mul (p.map (fun r => div (add (add r.high r.low) r.close) (fin 3)))
            (p.map (fun r => r.volume))))) = fin 0
      ∧ mfiAt p = fin 100 := by
  have hlts : ts.length = p.length := by
    have h := congrArg List.length hts
    simpa using h.symm
  have hlvs : vs.length = p.length := by
    have h := congrArg List.length hvs
    simpa using h.symm
  have hmoney : List.zipWith mul (ts.map fin) (vs.map fin)
      = (List.zipWith (fun a b => a * b) ts vs).map fin := zipWith_mul_fin ts vs
  have hmlen : (List.zipWith (fun a b => a * b) ts vs).length = p.length := by
    rw [List.length_zipWith]
    omega
  have hmpos : ∀ m ∈ List.zipWith (fun a b => a * b) ts vs, 0 < m :=
    zipWith_mul_pos ts vs htpos hvpos
  have htm : (p.map (fun r => div (add (add r.high r.low) r.close) (fin 3))).zip
        (List.zipWith mul (p.map (fun r => div (add (add r.high r.low) r.close) (fin 3)))
          (p.map (fun r => r.volume)))
      = (ts.zip (List.zipWith (fun a b => a * b) ts vs)).map (Prod.map fin fin) := by
    rw [hts, hvs, hmoney, List.zip_map]
  have hfst : (ts.zip (List.zipWith (fun a b => a * b) ts vs)).map Prod.fst = ts :=
    List.map_fst_zip ts (List.zipWith (fun a b => a * b) ts vs) (by omega)
  have hsnd : (ts.zip (List.zipWith (fun a b => a * b) ts vs)).map Prod.snd
      = List.zipWith (fun a b => a * b) ts vs :=
    List.map_snd_zip ts (List.zipWith (fun a b => a * b) ts vs) (by omega)
  cases hzm : ts.zip (List.zipWith (fun a b => a * b) ts vs) with
  | nil =>
    exfalso
    have h := congrArg List.length hzm
    rw [List.length_zip] at h
    rw [List.length_nil] at h
    omega
  | cons x Z =>
    obtain ⟨t0, m0⟩ := x
    have hts2 : ts = t0 :: Z.map Prod.fst := by
      rw [← hfst, hzm, List.map_cons]
    have hchain2 : List.Chain' (· < ·) (t0 :: Z.map Prod.fst) := by
      rw [← hts2]
      exact hch
    have hZlen : Z.length + 1 = p.length := by
      have h := congrArg List.length hzm
      rw [List.length_zip, List.length_cons] at h
      omega
    have hneg : flows (fun prev cur => ltE cur prev)
        ((ts.zip (List.zipWith (fun a b => a * b) ts vs)).map (Prod.map fin fin))
        = ((0:ℚ) :: Z.map (fun _ => (0:ℚ))).map fin := by
      rw [hzm, List.map_cons, Prod.map_apply, flows_cons]
      simp only [List.map_cons]
      congr 1
      exact flows_go_neg_incr Z t0 hchain2
    have hpos : flows (fun prev cur => ltE prev cur)
        ((ts.zip (List.zipWith (fun a b => a * b) ts vs)).map (Prod.map fin fin))
        = ((0:ℚ) :: Z.map Prod.snd).map fin := by
      rw [hzm, List.map_cons, Prod.map_apply, flows_cons]
      simp only [List.map_cons]
      congr 1
      exact flows_go_pos_incr Z t0 hchain2
    have hnz : ∀ z ∈ (0:ℚ) :: Z.map (fun _ => (0:ℚ)), z = 0 := by
      intro z hz
      rcases List.mem_cons.1 hz with rfl | hz'
      · rfl
      · obtain ⟨w, _, rfl⟩ := List.mem_map.1 hz'
        rfl
    have hnmf : rollLast 14 sumE (((0:ℚ) :: Z.map (fun _ => (0:ℚ))).map fin) = fin 0 := by
      rw [rollLast_sumE_fin 14 _ (by simp only [List.length_cons, List.length_map]; omega),
        List.sum_eq_zero (fun z hz => hnz z (List.drop_subset _ _ hz))]
    have hpmf : rollLast 14 sumE (((0:ℚ) :: Z.map Prod.snd).map fin)
        = fin (((Z.map Prod.snd).drop (Z.length - 14)).sum) := by
      rw [rollLast_sumE_fin 14 _ (by simp only [List.length_cons, List.length_map]; omega)]
      have h1 : ((0:ℚ) :: Z.map Prod.snd).length - 14
          = ((Z.map Prod.snd).length - 14) + 1 := by
        simp only [List.length_cons, List.length_map]
        omega
      rw [h1, List.drop_succ_cons, List.length_map]
    have hSpos : 0 < ((Z.map Prod.snd).drop (Z.length - 14)).sum := by
      apply List.sum_pos
      · intro m hm
        have hm1 : m ∈ Z.map Prod.snd := List.drop_subset _ _ hm
        have hm2 : m ∈ (ts.zip (List.zipWith (fun a b => a * b) ts vs)).map Prod.snd := by
          rw [hzm, List.map_cons]
          exact List.mem_cons_of_mem _ hm1
        rw [hsnd] at hm2
        exact hmpos m hm2
      · have hl : ((Z.map Prod.snd).drop (Z.length - 14)).length = 14 := by
          rw [List.length_drop, List.length_map]
          omega
        intro hnil
        rw [hnil] at hl
        simp at hl
    constructor
    · rw [htm, hneg]
      exact hnmf
    · show sub (fin 100) (div (fin 100) (add (fin 1)
        (div (rollLast 14 sumE (flows (fun prev cur => ltE prev cur)
               ((p.map (fun r => div (add (add r.high r.low) r.close) (fin 3))).zip
                 (List.zipWith mul (p.map (fun r => div (add (add r.high r.low) r.close) (fin 3)))
                   (p.map (fun r => r.volume))))))
             (rollLast 14 sumE (flows (fun prev cur => ltE cur prev)
               ((p.map (fun r => div (add (add r.high r.low) r.close) (fin 3))).zip
                 (List.zipWith mul (p.map (fun r => div (add (add r.high r.low) r.close) (fin 3)))
                   (p.map (fun r => r.volume))))))))) = fin 100
      rw [htm, hneg, hpos, hnmf, hpmf]
      simp [EFloat.div, EFloat.add, EFloat.sub, EFloat.neg, hSpos, hSpos.ne']

/-- C6 (amended): on a ticker block with finite strictly increasing
typical price `(high+low+close)/3` and finite positive volumes, for every
bar from the 15th onward the 14-bar negative money-flow sum — `mfi`'s
ratio denominator — is exactly zero, yet `mfi` is not null: it resolves to
the finite sentinel `100` (pandas divides by the zero sum to `+inf` and
`100 - 100/(1+inf) = 100`), and the row is present in the output.  This
refutes the null-on-zero-denominator claim for `mfi` while confirming
that no `±inf` cell is produced in this case. -/
theorem calcAll_mfi_sentinel (rows : List IRow) (t : String) (ys : List IRow)
    (hys : ys = sortLt dateLt (rows.filter (fun r => decide (r.ticker = t))))
    (ts vs : List ℚ)
    (hts : ys.map (fun r => div (add (add r.high r.low) r.close) (fin 3)) = ts.map fin)
    (hvs : ys.map (fun r => r.volume) = vs.map fin)
    (htpos : ∀ x ∈ ts, 0 < x) (hvpos : ∀ x ∈ vs, 0 < x)
    (hch : List.Chain' (· < ·) ts)
    (p : List IRow) (hp : p ∈ inits1 ys) (hlen : 15 ≤ p.length) :
    mkAt ys p ∈ calcAll rows
      ∧ (mkAt ys p).mfi = fin 100
      ∧ rollLast 14 sumE (flows (fun prev cur => ltE cur prev)
          ((p.map (fun r => div (add (add r.high r.low) r.close) (fin 3))).zip
            (List.zipWith mul (p.map (fun r => div (add (add r.high r.low) r.close) (fin 3)))
              (p.map (fun r => r.volume))))) = fin 0 := by
  have hpre := inits1_isPrefix p ys hp
  have hptake : p = ys.take p.length := List.prefix_iff_eq_take.1 hpre
  have htsp : p.map (fun r => div (add (add r.high r.low) r.close) (fin 3))
      = (ts.take p.length).map fin := by
    rw [List.map_take, ← hts, ← List.map_take, ← hptake]
  have hvsp : p.map (fun r => r.volume) = (vs.take p.length).map fin := by
    rw [List.map_take, ← hvs, ← List.map_take, ← hptake]
  obtain ⟨hzero, hmfi0⟩ := mfiAt_pos_flow p (ts.take p.length) (vs.take p.length)
    htsp hvsp (fun x hx => htpos x (List.take_subset _ _ hx))
    (fun x hx => hvpos x (List.take_subset _ _ hx))
    (hch.sublist (List.take_sublist _ _)) hlen
  have hmfi : (mkAt ys p).mfi = fin 100 := by
    rw [mkAt_mfi]
    exact hmfi0
  have hpne : p ≠ [] := inits1_ne_nil p ys hp
  obtain ⟨r0, hr0⟩ : ∃ r, r ∈ ys := by
    cases p with
    | nil => exact absurd rfl hpne
    | cons a as => exact ⟨a, mem_of_mem_inits1 _ _ hp a (by simp)⟩
  have hr0f : r0 ∈ rows.filter (fun r => decide (r.ticker = t)) := by
    rw [hys] at hr0
    exact (mem_sortLt dateLt _ r0).1 hr0
  have ht : t ∈ uniqueTickers rows :=
    (mem_uniqueTickers rows t).2 ⟨r0, List.mem_of_mem_filter hr0f,
      by have h := List.of_mem_filter hr0f; simpa using h⟩
  refine ⟨?_, hmfi, hzero⟩
  unfold calcAll
  apply List.mem_filter.2
  refine ⟨?_, by simp [allNaN, hmfi, isNaN]⟩
  apply List.mem_flatMap.2
  refine ⟨t, ht, ?_⟩
  rw [← hys]
  exact List.mem_map.2 ⟨p, hp, rfl⟩

/-- C6 (counterexample): on the concrete 15-bar block `rowsC3` the 14-bar
negative money-flow sum — `mfi`'s ratio denominator — is exactly zero,
yet the output `mfi` is the non-null value `100`: the claim that every
listed ratio indicator is null whenever its denominator is zero is false
for `mfi`. -/
theorem mfi_not_null_on_zero_denominator :
    rollLast 14 sumE (flows (fun prev cur => ltE cur prev)
        ((rowsC3.map (fun r => div (add (add r.high r.low) r.close) (fin 3))).zip
          (List.zipWith mul (rowsC3.map (fun r => div (add (add r.high r.low) r.close) (fin 3)))
            (rowsC3.map (fun r => r.volume))))) = fin 0
      ∧ (mkAt rowsC3 rowsC3).mfi = fin 100
      ∧ (mkAt rowsC3 rowsC3).mfi ≠ nan := by
  have hts : rowsC3.map (fun r => div (add (add r.high r.low) r.close) (fin 3))
      = tsC6.map fin := by
    norm_num [rowsC3, tsC6, EFloat.div, EFloat.add]
  have hvs : rowsC3.map (fun r => r.volume) = vsC6.map fin := rfl
  have htpos : ∀ x ∈ tsC6, 0 < x := by
    intro x hx
    simp [tsC6] at hx
    rcases hx with rfl | rfl | rfl | rfl | rfl | rfl | rfl | rfl | rfl | rfl | rfl | rfl | rfl | rfl | rfl <;>
      norm_num
  have hvpos : ∀ x ∈ vsC6, 0 < x := by
    intro x hx
    rw [List.eq_of_mem_replicate hx]
    norm_num
  have hch : List.Chain' (· < ·) tsC6 := by
    norm_num [tsC6, List.chain'_cons]
  obtain ⟨hzero, hmfi⟩ := mfiAt_pos_flow rowsC3 tsC6 vsC6 hts hvs htpos hvpos hch
    (by norm_num [rowsC3])
  refine ⟨hzero, ?_, ?_⟩
  · rw [mkAt_mfi]
    exact hmfi
  · rw [mkAt_mfi, hmfi]
    simp

/-- C6 (witness): the amended sentinel theorem applied to the 15-bar
block `rowsC3`. -/
theorem calcAll_mfi_sentinel_witness :
    (rowsC3 = sortLt dateLt (rowsC3.filter (fun r => decide (r.ticker = "A")))
      ∧ rowsC3.map (fun r => div (add (add r.high r.low) r.close) (fin 3)) = tsC6.map fin
      ∧ rowsC3.map (fun r => r.volume) = vsC6.map fin
      ∧ (∀ x ∈ tsC6, 0 < x) ∧ (∀ x ∈ vsC6, 0 < x)
      ∧ List.Chain' (· < ·) tsC6
      ∧ rowsC3 ∈ inits1 rowsC3 ∧ 15 ≤ rowsC3.length)
    ∧ mkAt rowsC3 rowsC3 ∈ calcAll rowsC3 := by
  have h1 : rowsC3 = sortLt dateLt (rowsC3.filter (fun r => decide (r.ticker = "A"))) := by
    rfl
  have hts : rowsC3.map (fun r => div (add (add r.high r.low) r.close) (fin 3))
      = tsC6.map fin := by
    norm_num [rowsC3, tsC6, EFloat.div, EFloat.add]
  have hvs : rowsC3.map (fun r => r.volume) = vsC6.map fin := rfl
  have htpos : ∀ x ∈ tsC6, 0 < x := by
    intro x hx
    simp [tsC6] at hx
    rcases hx with rfl | rfl | rfl | rfl | rfl | rfl | rfl | rfl | rfl | rfl | rfl | rfl | rfl | rfl | rfl <;>
      norm_num
  have hvpos : ∀ x ∈ vsC6, 0 < x := by
    intro x hx
    rw [List.eq_of_mem_replicate hx]
    norm_num
  have hch : List.Chain' (· < ·) tsC6 := by
    norm_num [tsC6, List.chain'_cons]
  have h4 : rowsC3 ∈ inits1 rowsC3 := self_mem_inits1 _ (by simp [rowsC3])
  have h5 : (15 : ℕ) ≤ rowsC3.length := by
    norm_num [rowsC3]
  exact ⟨⟨h1, hts, hvs, htpos, hvpos, hch, h4, h5⟩,
    (calcAll_mfi_sentinel rowsC3 "A" rowsC3 h1 tsC6 vsC6 hts hvs htpos hvpos hch
      rowsC3 h4 h5).1⟩

/-! ### Truncation invariance -/

/-- Factored membership argument: an enriched block row whose indicator
columns are not all NaN survives into `calculate_all_indicators`'s
output. -/
theorem mkAt_mem_calcAll (rows : List IRow) (t : String) (ys p : List IRow)
    (hys : ys = sortLt dateLt (rows.filter (fun r => decide (r.ticker = t))))
    (hp : p ∈ inits1 ys) (hnotall : allNaN (mkAt ys p) = false) :
    mkAt ys p ∈ calcAll rows := by
  have hpne : p ≠ [] := inits1_ne_nil p ys hp
  obtain ⟨r0, hr0⟩ : ∃ r, r ∈ ys := by
    cases p with
    | nil => exact absurd rfl hpne
    | cons a as => exact ⟨a, mem_of_mem_inits1 _ _ hp a (by simp)⟩
  have hr0f : r0 ∈ rows.filter (fun r => decide (r.ticker = t)) := by
    rw [hys] at hr0
    exact (mem_sortLt dateLt _ r0).1 hr0
  have ht : t ∈ uniqueTickers rows :=
    (mem_uniqueTickers rows t).2 ⟨r0, List.mem_of_mem_filter hr0f,
      by have h := List.of_mem_filter hr0f; simpa using h⟩
  unfold calcAll
  apply List.mem_filter.2
  refine ⟨?_, by simp [hnotall]⟩
  apply List.mem_flatMap.2
  refine ⟨t, ht, ?_⟩
  rw [← hys]
  exact List.mem_map.2 ⟨p, hp, rfl⟩

/-- A row whose `ema_5` is finite survives the final `dropna(how='all')`. -/
theorem allNaN_false_of_ema5 (ys p : List IRow) (q : ℚ)
    (h : (mkAt ys p).ema_5 = fin q) : allNaN (mkAt ys p) = false := by
  simp [allNaN, h, isNaN]

/-- Inserting an element that sorts before every element of `l2` only
touches the `l1` part. -/
theorem insertLt_append_of {α : Type} (lt : α → α → Bool) (x : α) :
    ∀ (l1 l2 : List α), (∀ z ∈ l2, lt z x = false) →
    insertLt lt x (l1 ++ l2) = insertLt lt x l1 ++ l2 := by
  intro l1
  induction l1 with
  | nil =>
    intro l2 h
    cases l2 with
    | nil => rfl
    | cons z zs =>
      show (if lt z x then z :: insertLt lt x zs else x :: z :: zs) = [x] ++ z :: zs
      rw [h z (by simp)]
      simp
  | cons y l1' ih =>
    intro l2 h
    show (if lt y x then y :: insertLt lt x (l1' ++ l2) else x :: y :: (l1' ++ l2))
        = (if lt y x then y :: insertLt lt x l1' else x :: y :: l1') ++ l2
    by_cases hyx : lt y x = true
    · rw [if_pos hyx, if_pos hyx, List.cons_append, ih l2 h]
    · rw [if_neg hyx, if_neg hyx]
      rfl

/-- Sorting a concatenation whose second part sorts after every element
of the first part sorts each part separately. -/
theorem sortLt_append_of {α : Type} (lt : α → α → Bool) :
    ∀ (l1 l2 : List α), (∀ x ∈ l1, ∀ z ∈ l2, lt z x = false) →
    sortLt lt (l1 ++ l2) = sortLt lt l1 ++ sortLt lt l2 := by
  intro l1
  induction l1 with
  | nil =>
    intro l2 _
    rfl
  | cons x l1' ih =>
    intro l2 h
    show insertLt lt x (sortLt lt (l1' ++ l2))
        = insertLt lt x (sortLt lt l1') ++ sortLt lt l2
    rw [ih l2 (fun a ha z hz => h a (by simp [ha]) z hz)]
    apply insertLt_append_of
    intro z hz
    exact h x (by simp) z ((mem_sortLt lt l2 z).1 hz)

/-- C1 (amended): appending later bars of ticker `t` (all dated at or
after every existing bar of `t`, with the existing closes finite) leaves
every original output row of `t` present in the enriched output with all
its indicator columns unchanged except `total_return` — the one
column computed from the whole block (a deliberate look-ahead), which the
counterexample shows does change. -/
theorem calcAll_truncation (rows1 extra : List IRow) (t : String)
    (hext : ∀ z ∈ extra, z.ticker = t)
    (hlater : ∀ r ∈ rows1, r.ticker = t → ∀ z ∈ extra, r.date ≤ z.date)
    (hfin : ∀ r ∈ rows1, r.ticker = t → ∃ q, r.close = fin q)
    (p : List IRow)
    (hp : p ∈ inits1 (sortLt dateLt (rows1.filter (fun r => decide (r.ticker = t))))) :
    mkAt (sortLt dateLt (rows1.filter (fun r => decide (r.ticker = t)))) p ∈ calcAll rows1
    ∧ mkAt (sortLt dateLt ((rows1 ++ extra).filter (fun r => decide (r.ticker = t)))) p
        ∈ calcAll (rows1 ++ extra)
    ∧ { mkAt (sortLt dateLt ((rows1 ++ extra).filter (fun r => decide (r.ticker = t)))) p
          with total_return := nan }
      = { mkAt (sortLt dateLt (rows1.filter (fun r => decide (r.ticker = t)))) p
          with total_return := nan } := by
  have hys2 : sortLt dateLt ((rows1 ++ extra).filter (fun r => decide (r.ticker = t)))
      = sortLt dateLt (rows1.filter (fun r => decide (r.ticker = t)))
        ++ sortLt dateLt extra := by
    rw [List.filter_append]
    have hef : extra.filter (fun r => decide (r.ticker = t)) = extra :=
      List.filter_eq_self.2 (fun z hz => by simp [hext z hz])
    rw [hef]
    apply sortLt_append_of
    intro x hx z hz
    have hx1 : x ∈ rows1 := List.mem_of_mem_filter hx
    have hxt : x.ticker = t := by
      have h := List.of_mem_filter hx
      simpa using h
    have hle := hlater x hx1 hxt z hz
    simp only [dateLt, decide_eq_false_iff_not, not_lt]
    exact hle
  have hp2 : p ∈ inits1 (sortLt dateLt ((rows1 ++ extra).filter
      (fun r => decide (r.ticker = t)))) := by
    rw [hys2, inits1_append]
    exact List.mem_append_left _ hp
  have hpc : ∀ x ∈ p.map (fun r => r.close), ∃ q, x = fin q := by
    intro x hx
    obtain ⟨r, hr, rfl⟩ := List.mem_map.1 hx
    have hr2 := mem_of_mem_inits1 p _ hp r hr
    have hr3 : r ∈ rows1.filter (fun s => decide (s.ticker = t)) :=
      (mem_sortLt dateLt _ r).1 hr2
    exact hfin r (List.mem_of_mem_filter hr3)
      (by have h := List.of_mem_filter hr3; simpa using h)
  have hpne : p ≠ [] := inits1_ne_nil p _ hp
  have hmne : p.map (fun r => r.close) ≠ [] := by
    cases p with
    | nil => exact absurd rfl hpne
    | cons a as => simp
  obtain ⟨q, hq⟩ := ewmLast_fin 5 (by norm_num) _ hmne hpc
  refine ⟨mkAt_mem_calcAll rows1 t _ p rfl hp ?_,
          mkAt_mem_calcAll (rows1 ++ extra) t _ p rfl hp2 ?_, rfl⟩
  · exact allNaN_false_of_ema5 _ p q hq
  · exact allNaN_false_of_ema5 _ p q hq

/-- C1 (counterexample): appending the strictly later bar `rowC1b` to the
input `[rowC1a]` changes the `total_return` indicator of the output row
for `("A", 0)` from `0` to `1` — `total_return` is assigned
`close.iloc[-1]/close.iloc[0] - 1` over the whole block, a look-ahead, so
truncation invariance fails for that column. -/
theorem calcAll_lookahead :
    mkAt [rowC1a] [rowC1a] ∈ calcAll [rowC1a]
    ∧ mkAt [rowC1a, rowC1b] [rowC1a] ∈ calcAll [rowC1a, rowC1b]
    ∧ (mkAt [rowC1a] [rowC1a]).date = (mkAt [rowC1a, rowC1b] [rowC1a]).date
    ∧ (mkAt [rowC1a] [rowC1a]).ticker = (mkAt [rowC1a, rowC1b] [rowC1a]).ticker
    ∧ (mkAt [rowC1a] [rowC1a]).total_return = fin 0
    ∧ (mkAt [rowC1a, rowC1b] [rowC1a]).total_return = fin 1
    ∧ (mkAt [rowC1a] [rowC1a]).total_return
        ≠ (mkAt [rowC1a, rowC1b] [rowC1a]).total_return := by
  have htra : (mkAt [rowC1a] [rowC1a]).tr = fin 0 := by
    rw [mkAt_tr]
    norm_num [trAt, rowC1a, EFloat.sub, EFloat.add, EFloat.neg]
  have htrb : (mkAt [rowC1a, rowC1b] [rowC1a]).tr = fin 0 := by
    rw [mkAt_tr]
    norm_num [trAt, rowC1a, EFloat.sub, EFloat.add, EFloat.neg]
  have h1 : calcAll [rowC1a] = (perTicker [rowC1a]).filter (fun e => !(allNaN e)) := by
    simp [calcAll, uniqueTickers, rowC1a, sortLt, insertLt]
  have h2 : perTicker [rowC1a] = [mkAt [rowC1a] [rowC1a]] := by
    simp [perTicker, inits1]
  have h3 : calcAll [rowC1a, rowC1b]
      = (perTicker [rowC1a, rowC1b]).filter (fun e => !(allNaN e)) := by
    simp [calcAll, uniqueTickers, rowC1a, rowC1b, sortLt, insertLt, dateLt]
  have h4 : perTicker [rowC1a, rowC1b]
      = [mkAt [rowC1a, rowC1b] [rowC1a], mkAt [rowC1a, rowC1b] [rowC1a, rowC1b]] := by
    simp [perTicker, inits1]
  have hmem1 : mkAt [rowC1a] [rowC1a] ∈ calcAll [rowC1a] := by
    rw [h1, h2]
    apply List.mem_filter.2
    exact ⟨by simp, by simp [allNaN, htra, isNaN]⟩
  have hmem2 : mkAt [rowC1a, rowC1b] [rowC1a] ∈ calcAll [rowC1a, rowC1b] := by
    rw [h3, h4]
    apply List.mem_filter.2
    exact ⟨by simp, by simp [allNaN, htrb, isNaN]⟩
  have htot1 : (mkAt [rowC1a] [rowC1a]).total_return = fin 0 := by
    rw [mkAt_total]
    norm_num [totalReturnOf, rowC1a, EFloat.div, EFloat.sub, EFloat.add, EFloat.neg]
  have htot2 : (mkAt [rowC1a, rowC1b] [rowC1a]).total_return = fin 1 := by
    rw [mkAt_total]
    norm_num [totalReturnOf, rowC1a, rowC1b, EFloat.div, EFloat.sub, EFloat.add, EFloat.neg]
  refine ⟨hmem1, hmem2, rfl, rfl, htot1, htot2, ?_⟩
  rw [htot1, htot2]
  intro h
  injection h with h'
  norm_num at h'

/-- C1 (witness): the truncation theorem applied to the one-bar input
`[rowC1a]` extended by the later bar `rowC1b`. -/
theorem calcAll_truncation_witness :
    ((∀ z ∈ [rowC1b], z.ticker = "A")
      ∧ (∀ r ∈ [rowC1a], r.ticker = "A" → ∀ z ∈ [rowC1b], r.date ≤ z.date)
      ∧ (∀ r ∈ [rowC1a], r.ticker = "A" → ∃ q, r.close = fin q)
      ∧ [rowC1a] ∈ inits1 (sortLt dateLt ([rowC1a].filter
          (fun r => decide (r.ticker = "A")))))
    ∧ { mkAt (sortLt dateLt (([rowC1a] ++ [rowC1b]).filter
          (fun r => decide (r.ticker = "A")))) [rowC1a] with total_return := nan }
      = { mkAt (sortLt dateLt ([rowC1a].filter
          (fun r => decide (r.ticker = "A")))) [rowC1a] with total_return := nan } := by
  have hext : ∀ z ∈ [rowC1b], z.ticker = "A" := by
    intro z hz
    rw [List.mem_singleton.1 hz]
    rfl
  have hlater : ∀ r ∈ [rowC1a], r.ticker = "A" → ∀ z ∈ [rowC1b], r.date ≤ z.date := by
    intro r hr _ z hz
    rw [List.mem_singleton.1 hr, List.mem_singleton.1 hz]
    norm_num [rowC1a, rowC1b]
  have hfin : ∀ r ∈ [rowC1a], r.ticker = "A" → ∃ q, r.close = fin q := by
    intro r hr _
    rw [List.mem_singleton.1 hr]
    exact ⟨1, rfl⟩
  have hs : sortLt dateLt ([rowC1a].filter (fun r => decide (r.ticker = "A")))
      = [rowC1a] := rfl
  have hp : [rowC1a] ∈ inits1 (sortLt dateLt ([rowC1a].filter
      (fun r => decide (r.ticker = "A")))) := by
    rw [hs]
    exact self_mem_inits1 _ (by simp)
  exact ⟨⟨hext, hlater, hfin, hp⟩,
    (calcAll_truncation [rowC1a] [rowC1b] "A" hext hlater hfin [rowC1a] hp).2.2⟩

/-- C9 (witness): isolation applied to one row of ticker `"A"` beside one
row of ticker `"B"`. -/
theorem calcAll_ticker_isolation_witness :
    (calcAll [⟨0, "A", fin 1, fin 1, fin 1, fin 1, fin 1⟩,
              ⟨0, "B", fin 2, fin 2, fin 2, fin 2, fin 2⟩]).filter
        (fun e => decide (e.ticker = "A")) =
      (calcAll [⟨0, "A", fin 1, fin 1, fin 1, fin 1, fin 1⟩]).filter
        (fun e => decide (e.ticker = "A")) :=
  calcAll_ticker_isolation [⟨0, "A", fin 1, fin 1, fin 1, fin 1, fin 1⟩]
    [⟨0, "A", fin 1, fin 1, fin 1, fin 1, fin 1⟩,
     ⟨0, "B", fin 2, fin 2, fin 2, fin 2, fin 2⟩] "A" "B"
    (by decide) (by rfl)

end DM
